import Mathlib

/-!
Verification of the localization extraction/patch core of the
`test-docs-action` repository (files `src/utils.js` and the main action
module).  Texts are modelled as `List Char` (JS strings, ASCII range for
all concrete inputs considered), offsets as `Int` where JS arithmetic can
go negative, and thrown exceptions as `Except` errors.
-/

namespace TestDocs

/-- A half-open source span carried by a positioned tree node
(`node.position.start.offset` / `node.position.end.offset`). -/
structure Pos where
  startOffset : Nat
  endOffset : Nat
deriving DecidableEq, Repr

/-- An attribute of an `mdxJsxFlowElement` node (`name`, `value`,
`position`). -/
structure Attr where
  name : String := ""
  value : List Char := []
  position : Option Pos := none
deriving Repr

/-- An entry of `node.data.estree.body` for an `mdxjsEsm` node: its `type`,
and the `source` string literal's `raw` text and `start`/`end` offsets. -/
structure EsNode where
  type : String := ""
  raw : List Char := []
  sourceStart : Nat := 0
  sourceEnd : Nat := 0
deriving Repr

/-- The scalar fields of a positioned tree node (the external parser's
output): type tag, directive/JSX name, raw value, link url, the
`data.directiveLabel` marker, JSX attributes, the embedded estree body of
an `mdxjsEsm` node, and the node's source span. -/
structure NodeInfo where
  type : String := ""
  name : String := ""
  value : List Char := []
  url : List Char := []
  directiveLabel : Bool := false
  attributes : List Attr := []
  esBody : List EsNode := []
  position : Option Pos := none
deriving Repr

/-- A positioned tree node: scalar fields plus ordered children. -/
inductive Node where
  | mk (info : NodeInfo) (children : List Node)

def Node.info : Node → NodeInfo
  | .mk i _ => i

def Node.children : Node → List Node
  | .mk _ c => c

def Node.type (n : Node) : String := n.info.type

def Node.name (n : Node) : String := n.info.name

def Node.value (n : Node) : List Char := n.info.value

def Node.position (n : Node) : Option Pos := n.info.position

/-- A localization change record.  The JS objects carry `type` and `notes`
only on some change kinds, hence the `Option`s.  `start`/`end` are the
half-open span into the source text. -/
structure Change where
  type : Option String := none
  text : List Char := []
  start : Int := 0
  «end» : Int := 0
  notes : Option String := none
deriving DecidableEq, Repr

/-- The error thrown by `replaceSubstring` for an invalid span
(`Invalid indices provided: (start, end)`), carrying the offending pair. -/
inductive PatchError where
  | invalidRange (start finish : Int)
deriving DecidableEq, Repr

/-- `export const DEBUG = true;` from `src/utils.js`. -/
def DEBUG : Bool := true

/-- `DEFAULT_LOCALE = LOCALES.en` from `src/utils.js`. -/
def DEFAULT_LOCALE : String := "en-US"

/-- `createPlaceholder(value)` returns `%%value%%`. -/
def createPlaceholder (value : String) : String := "%%" ++ value ++ "%%"

/-- `shortLocale(locale)` is `locale.slice(0, 2)`. -/
def shortLocale (locale : String) : String := locale.take 2

/-- `str.replace(/\n$/, "")`: removes one newline from the end. -/
def chomp (s : List Char) : List Char :=
  if s.getLast? = some '\n' then s.dropLast else s

/-- The debug transform applied inside `replaceSubstring` when `DEBUG` is
set: `change.text.toLocaleUpperCase().replace(/ /g, "..")` (ASCII case
mapping, as for all inputs considered here). -/
def debugTransform (text : List Char) : List Char :=
  (text.map Char.toUpper).flatMap fun c => if c = ' ' then ['.', '.'] else [c]

/-- `replaceSubstring(original, change)` from `src/utils.js`, with the
`DEBUG` global made an explicit argument (`replaceSubstring` below fixes it
to the committed value).  Throws `Invalid indices provided: (start, end)`
when `start < 0 || end > original.length || start >= end`; otherwise
returns `original.substring(0, start) + text + original.substring(end)`. -/
def replaceSubstringD (debug : Bool) (original : List Char) (change : Change) :
    Except PatchError (List Char) :=
  if change.start < 0 ∨ (original.length : Int) < change.«end» ∨ change.«end» ≤ change.start then
    .error (.invalidRange change.start change.«end»)
  else
    let text := if !debug then change.text else debugTransform change.text
    .ok (original.take change.start.toNat ++ text ++ original.drop change.«end».toNat)

/-- `replaceSubstring` as committed (`DEBUG = true`). -/
def replaceSubstring : List Char → Change → Except PatchError (List Char) :=
  replaceSubstringD DEBUG

/-- `changes.sort((a, b) => b.start - a.start)`: a stable sort by
descending `start`, modelled as stable insertion sort. -/
def sortChanges (l : List Change) : List Change :=
  l.insertionSort fun a b => b.start ≤ a.start

/-- `applyChanges(content, changes)` from `src/utils.js`, with the `DEBUG`
global explicit: sorts by descending `start` and folds `replaceSubstring`
over the sorted list. -/
def applyChangesD (debug : Bool) (content : List Char) (changes : List Change) :
    Except PatchError (List Char) :=
  (sortChanges changes).foldlM (replaceSubstringD debug) content

/-- `applyChanges` as committed (`DEBUG = true`). -/
def applyChanges : List Char → List Change → Except PatchError (List Char) :=
  applyChangesD DEBUG

/-- `applyChanges` together with the post-call contents of the caller's
`changes` array: `Array.prototype.sort` reorders the array in place before
any substitution runs, so the array ends up sorted by descending `start`
even when a substitution later throws. -/
def applyChangesWithState (content : List Char) (changes : List Change) :
    Except PatchError (List Char) × List Change :=
  (applyChanges content changes, sortChanges changes)

/-- The literal slice `source[start:end]` (half-open). -/
def sliceN (s : List Char) (a b : Nat) : List Char := (s.take b).drop a

instance : IsTotal Change (fun a b => b.start ≤ a.start) :=
  ⟨fun a b => le_total b.start a.start⟩

instance : IsTrans Change (fun a b => b.start ≤ a.start) :=
  ⟨fun _ _ _ hab hbc => le_trans hbc hab⟩

/-! ## The extraction side: utilities shared by the extractors -/
/-- `url.replace(pat, rep)` with a string pattern: replaces the first
occurrence of `pat` (if any), scanning left to right. -/
def replaceFirst : List Char → List Char → List Char → List Char
  | s, pat, rep =>
    if pat.isPrefixOf s then rep ++ s.drop pat.length
    else
      match s with
      | [] => []
      | c :: rest => c :: replaceFirst rest pat rep

/-- `localizeUrl(url)`: replace the default-locale segment in a URL with
the `%%locale%%` placeholder
(`url.replace("/" + shortLocale(DEFAULT_LOCALE), "/" + createPlaceholder("locale"))`). -/
def localizeUrl (url : List Char) : List Char :=
  replaceFirst url ("/" ++ shortLocale DEFAULT_LOCALE).data
    ("/" ++ createPlaceholder "locale").data

/-- A thrown JS `TypeError` (reading a property of `undefined`) during the
tree walk, or a missing position where one is read. -/
inductive WalkError where
  | typeError (msg : String)
deriving DecidableEq, Repr

/-- Reading `node.position.start.offset` / `node.position.end.offset`:
fails when the node carries no position. -/
def getPos (n : Node) : Except WalkError Pos :=
  match n.position with
  | some p => .ok p
  | none => .error (.typeError "cannot read start of undefined position")

/-- Reading `node.children[0].position` and
`node.children.slice(-1)[0].position`: fails when the list is empty or a
position is missing. -/
def firstLastPos (l : List Node) : Except WalkError (Pos × Pos) :=
  match l with
  | [] => .error (.typeError "cannot read position of undefined")
  | k0 :: ks => do
    let p0 ← getPos k0
    let pl ← getPos (ks.getLastD k0)
    .ok (p0, pl)

/-- One child's contribution to the accumulated text in `parseChildren`:
a code child contributes a leading line break, and any child other than a
list contributes its serialized form with the trailing newline chomped. -/
def childSegment (f : Node → List Char) (c : Node) : List Char :=
  (if c.type = "code" then ['\n'] else []) ++
    (if c.type = "list" then [] else chomp (f c))

/-- `parseAttribute(name, node, changes)`: find the attribute, emit one
change whose span drops the `name=` prefix and the closing quote; a
missing attribute is logged and skipped (no change). -/
def parseAttribute (name : String) (node : Node) : Except WalkError (List Change) :=
  match node.info.attributes.find? (fun a => a.name = name) with
  | none => .ok []
  | some attr =>
    match attr.position with
    | some q =>
      .ok [{ text := attr.value,
             start := (q.startOffset : Int) + attr.name.length + 1,
             «end» := (q.endOffset : Int) - 1,
             notes := some ("'" ++ name ++ "' attribute for " ++ node.name) }]
    | none => .error (.typeError "cannot read start of undefined position")

/-- The `TOP_LEVEL_NODE_TYPES` allow-list. -/
def TOP_LEVEL_NODE_TYPES : List String :=
  ["containerDirective", "heading", "image", "list", "mdxJsxFlowElement",
   "paragraph", "table"]

/-! ## The Content Tree Walker (`parseNode` and friends)

`parseNode` is the recursive dispatch of the action module; `parseChildren`
accumulates serialized text over a child list (emitting changes along the
way); `parseRootList` models `parseChildrenAsRoot` (each child parsed as a
root-level node).  The JS functions mutate `changes` in place; here each
function returns the list of changes it pushes, in push order.  In the
`containerDirective` branch without a label the first step of
`parseChildren` is unrolled (via `childSegment`) so that the recursion is
structural; the unrolled code is literally one unfolding of
`parseChildren` on `first :: rest`. -/
mutual

def parseNode (f : Node → List Char) :
    Node → Bool → Except WalkError (Node × List Change)
  | .mk info children, root =>
    if info.type = "link" then
      .ok (.mk { info with url := localizeUrl info.url } children, [])
    else if info.type = "mdxJsxFlowElement" then
      if info.name = "RelativeLink" then do
        let cs ← parseAttribute "title" (.mk info children)
        .ok (.mk info children, cs)
      else if info.name = "AccordionItem" then do
        let cs1 ← parseAttribute "title" (.mk info children)
        let (kids', cs2) ← parseRootList f children
        .ok (.mk info kids', cs1 ++ cs2)
      else .ok (.mk info children, [])
    else if info.type = "image" then .ok (.mk info children, [])
    else if info.type = "list" ∨ info.type = "listItem" ∨ info.type = "table" ∨
        info.type = "tableRow" then do
      let (kids', cs) ← parseRootList f children
      .ok (.mk info kids', cs)
    else if info.type = "heading" ∨ info.type = "paragraph" ∨
        info.type = "tableCell" then do
      let (kids', cs, text) ← parseChildren f children
      if root then do
        let (p0, pl) ← firstLastPos kids'
        .ok (.mk info kids',
             cs ++ [{ text := text, start := (p0.startOffset : Int),
                      «end» := (pl.endOffset : Int), notes := some "" }])
      else .ok (.mk info kids', cs)
    else if info.type = "containerDirective" then
      match children with
      | [] => .error (.typeError "cannot read data of undefined")
      | first :: rest =>
        if first.info.directiveLabel then
          match first.children with
          | [] => .error (.typeError "cannot read value of undefined")
          | fc :: _ =>
            match first.position with
            | none => .error (.typeError "cannot read start of undefined position")
            | some pf => do
              let labelChange : Change :=
                { type := some "containerDirectiveLabel", text := fc.value,
                  start := (pf.startOffset : Int) + 1,
                  «end» := (pf.endOffset : Int) - 1,
                  notes := some ("title for the \"" ++ info.name ++ "\" callout") }
              let (kids', cs, text) ← parseChildren f rest
              let (p0, pl) ← firstLastPos kids'
              .ok (.mk info kids',
                   labelChange :: cs ++
                     [{ text := text, start := (p0.startOffset : Int),
                        «end» := (pl.endOffset : Int),
                        notes := some ("content for the \"" ++ info.name ++ "\" callout") }])
        else do
          let (first', cs1) ← parseNode f first false
          let (rest', cs2, t2) ← parseChildren f rest
          let (p0, pl) ← firstLastPos (first' :: rest')
          .ok (.mk info (first' :: rest'),
               cs1 ++ cs2 ++
                 [{ text := childSegment f first' ++ t2,
                    start := (p0.startOffset : Int), «end» := (pl.endOffset : Int),
                    notes := some ("content for the \"" ++ info.name ++ "\" callout") }])
    else .ok (.mk info children, [])

def parseChildren (f : Node → List Char) :
    List Node → Except WalkError (List Node × List Change × List Char)
  | [] => .ok ([], [], [])
  | c :: cs => do
    let (c', ch1) ← parseNode f c false
    let (cs', ch2, t) ← parseChildren f cs
    .ok (c' :: cs', ch1 ++ ch2, childSegment f c' ++ t)

def parseRootList (f : Node → List Char) :
    List Node → Except WalkError (List Node × List Change)
  | [] => .ok ([], [])
  | c :: cs => do
    let (c', ch1) ← parseNode f c true
    let (cs', ch2) ← parseRootList f cs
    .ok (c' :: cs', ch1 ++ ch2)

end

/-- `parseContent`'s loop over the root's children: nodes whose type is in
the allow-list are parsed as root-level nodes, the rest are skipped. -/
def parseTopList (f : Node → List Char) : List Node → Except WalkError (List Change)
  | [] => .ok []
  | c :: cs => do
    let ch1 ←
      if TOP_LEVEL_NODE_TYPES.contains c.type then (parseNode f c true).map (·.2)
      else pure []
    let rest ← parseTopList f cs
    .ok (ch1 ++ rest)

/-- `parseContent(ast, processor)`. -/
def parseContent (f : Node → List Char) (ast : Node) : Except WalkError (List Change) :=
  parseTopList f ast.children

/-! ## The Frontmatter Extractor

`parseFrontmatter` runs `/(title:\s*)(.+)(?:\n|$)/.exec(frontmatter.value)`.
The regex is modelled directly: a match at a position consumes the literal
`title:`, then a greedy (backtracking) run of whitespace, then a greedy
nonempty run of non-newline characters, then a newline or the end of the
string; `exec` returns the leftmost such match. -/
/-- JS `\s` on the ASCII range. -/
def jsIsSpace (c : Char) : Bool :=
  c = ' ' ∨ c = '\t' ∨ c = '\n' ∨ c = '\r' ∨ c = '\x0b' ∨ c = '\x0c'

/-- The `(.+)(?:\n|$)` tail of the regex on remainder `r`: the greedy
nonempty run of non-newline characters.  After a maximal such run the
remainder is empty or starts with `\n`, so `(?:\n|$)` always succeeds. -/
def dotPlusSplit (r : List Char) : Option (List Char × List Char) :=
  if (r.takeWhile fun c => c ≠ '\n') = [] then none
  else some (r.takeWhile fun c => c ≠ '\n', r.drop (r.takeWhile fun c => c ≠ '\n').length)

/-- Backtracking for `\s*`: try the whitespace run `wsRev.reverse` (longest
first), giving characters back to `(.+)` one at a time on failure.
Returns the whitespace actually consumed and the `(.+)` capture. -/
def wsBacktrack : List Char → List Char → Option (List Char × List Char)
  | wsRev, r =>
    match dotPlusSplit r with
    | some (t, _) => some (wsRev.reverse, t)
    | none =>
      match wsRev with
      | [] => none
      | c :: ws => wsBacktrack ws (c :: r)

/-- Try the regex at the start of `s`: on success, return the length of
the first capture `(title:\s*)` and the second capture `(.+)`. -/
def matchTitleAt (s : List Char) : Option (Nat × List Char) :=
  if s.take 6 = "title:".data then
    match wsBacktrack ((s.drop 6).takeWhile jsIsSpace).reverse
        ((s.drop 6).drop ((s.drop 6).takeWhile jsIsSpace).length) with
    | some (w, t) => some (6 + w.length, t)
    | none => none
  else none

/-- `regex.exec`: the leftmost match, as
(`match.index`, `match[1].length`, `match[2]`). -/
def execTitle : List Char → Nat → Option (Nat × Nat × List Char)
  | [], _ => none
  | c :: rest, i =>
    match matchTitleAt (c :: rest) with
    | some (m1, t) => some (i, m1, t)
    | none => execTitle rest (i + 1)

/-- `parseFrontmatter(ast)`: find the first `yaml` child; no such child or
no `title` match in its raw value yields an empty list; otherwise emit one
`title` change.  The span adds the metadata block's start offset plus the
leading `---\n` divider (excluded from the block's position) plus the
offset of the title value inside the raw block text. -/
def parseFrontmatter (ast : Node) : Except WalkError (List Change) :=
  match ast.children.find? (fun n => n.type = "yaml") with
  | none => .ok []
  | some frontmatter =>
    match execTitle frontmatter.value 0 with
    | none => .ok []
    | some (idx, m1len, title) =>
      match frontmatter.position with
      | some p =>
        .ok [{ type := some "title", text := title,
               notes := some "title for document",
               start := (p.startOffset : Int) + (4 + idx + m1len),
               «end» := (p.startOffset : Int) + (4 + idx + m1len + title.length) }]
      | none => .error (.typeError "cannot read start of undefined position")

/-! ## The Reference Extractor (`parseImports`) -/
/-- `parseImports(ast)`: over every `mdxjsEsm` child's estree body, each
`ImportDeclaration` whose localized source differs from the original
yields one `Import` change at the source literal's span; entries mapped to
`null`/`undefined` are filtered out. -/
def parseImports (ast : Node) : List Change :=
  ((ast.children.filter fun n => n.type = "mdxjsEsm").flatMap fun n =>
    n.info.esBody.map fun child =>
      if child.type = "ImportDeclaration" then
        if child.raw = localizeUrl child.raw then none
        else
          some { type := some "Import", text := localizeUrl child.raw,
                 start := (child.sourceStart : Int),
                 «end» := (child.sourceEnd : Int) }
      else none).reduceOption

/-- The full extraction (the change list assembled in `uploadFiles`):
frontmatter changes, then import changes, then content changes. -/
def parseAll (f : Node → List Char) (ast : Node) : Except WalkError (List Change) :=
  do
    let fm ← parseFrontmatter ast
    let ct ← parseContent f ast
    .ok (fm ++ parseImports ast ++ ct)

/-! ## Well-formed positioned trees

`WFNode` captures the guarantees of the external parser that produced the
tree: every node carries a span with `start < end ≤ len(source)`; child
spans are contained in the parent's span, listed in document order with
disjoint (half-open) spans; a directive-label node's span includes its two
bracket delimiters around a nonempty label; a `yaml` node's span is
`---\n` + raw value + `\n---`; attribute spans sit inside the node's span
and include the `name=` prefix and quotes around the value; estree source
spans sit inside their node's span. -/
def attrWF (p : Pos) (a : Attr) : Bool :=
  match a.position with
  | none => true
  | some q =>
    decide (p.startOffset ≤ q.startOffset) &&
      decide (q.startOffset + a.name.length + 2 < q.endOffset) &&
      decide (q.endOffset ≤ p.endOffset)

def esWF (p : Pos) (e : EsNode) : Bool :=
  decide (p.startOffset ≤ e.sourceStart) && decide (e.sourceStart < e.sourceEnd) &&
    decide (e.sourceEnd ≤ p.endOffset)

/-- Each child's span is inside `p`. -/
def childrenWithin (p : Pos) (l : List Node) : Bool :=
  l.all fun c =>
    match c.position with
    | none => false
    | some q => decide (p.startOffset ≤ q.startOffset) && decide (q.endOffset ≤ p.endOffset)

/-- Consecutive siblings occupy disjoint spans in document order. -/
def childrenOrdered : List Node → Bool
  | [] => true
  | [_] => true
  | a :: b :: rest =>
    (match a.position, b.position with
     | some pa, some pb => decide (pa.endOffset ≤ pb.startOffset)
     | _, _ => true) && childrenOrdered (b :: rest)

mutual

def WFNode (src : List Char) (n : Node) : Bool :=
  match n with
  | .mk info children =>
    match info.position with
    | none => false
    | some p =>
      decide (p.startOffset < p.endOffset) && decide (p.endOffset ≤ src.length) &&
        (!info.directiveLabel || decide (p.startOffset + 2 < p.endOffset)) &&
        (!(info.type = "yaml" : Bool) ||
          decide (p.endOffset = p.startOffset + 8 + info.value.length)) &&
        info.attributes.all (attrWF p) &&
        info.esBody.all (esWF p) &&
        childrenWithin p children &&
        childrenOrdered children &&
        WFList src children

def WFList (src : List Char) : List Node → Bool
  | [] => true
  | c :: cs => WFNode src c && WFList src cs

end

/-- A well-formed root tree: the root node (and recursively the whole
tree) is well formed against the source. -/
def WFRoot (src : List Char) (ast : Node) : Bool := WFNode src ast

/-- No two spans in the list overlap. -/
def NonOverlapping (cs : List Change) : Prop :=
  cs.Pairwise fun a b => a.«end» ≤ b.start ∨ b.«end» ≤ a.start

/-- The tree walk failed with a thrown error. -/
def walkFailed (x : Except WalkError (Node × List Change)) : Bool :=
  match x with
  | .error _ => true
  | .ok _ => false

/-- The label child `[See also]` of the witness directive, spanning
`[6, 16)`. -/
def c8Label : Node :=
  .mk { type := "paragraph", directiveLabel := true, position := some ⟨6, 16⟩ }
    [.mk { type := "text", value := "See also".data, position := some ⟨7, 15⟩ } []]

/-- The remaining paragraph child of the witness directive, spanning
`[17, 21)`. -/
def c8Para : Node :=
  .mk { type := "paragraph", position := some ⟨17, 21⟩ }
    [.mk { type := "text", value := "body".data, position := some ⟨17, 21⟩ } []]

/-- The witness directive-container node: a `tip` callout whose first
child carries the label marker. -/
def c8Directive : Node :=
  .mk { type := "containerDirective", name := "tip", position := some ⟨0, 30⟩ }
    [c8Label, c8Para]

/-- The source of the frontmatter example:
`"---\ntitle: Guide\n---\n\nBody"`. -/
def fmSource : List Char := "---\ntitle: Guide\n---\n\nBody".data

/-- The positioned tree the external parser produces for `fmSource`: a
root whose first child is the metadata (`yaml`) block spanning offsets
`[0, 20)` with raw value `"title: Guide"` (the `---` delimiters excluded),
followed by the body paragraph. -/
def fmTree : Node :=
  .mk { type := "root", position := some ⟨0, 26⟩ }
    [.mk { type := "yaml", value := "title: Guide".data, position := some ⟨0, 20⟩ } [],
     .mk { type := "paragraph", position := some ⟨22, 26⟩ }
       [.mk { type := "text", value := "Body".data, position := some ⟨22, 26⟩ } []]]

/-- The source of the C7 counterexample: a `tip` directive containing a
paragraph and a list (`:::tip\ntext\n\n- item\n:::\n`). -/
def cexSource : List Char := ":::tip\ntext\n\n- item\n:::\n".data

/-- The positioned tree the external parser produces for `cexSource`: the
directive's children are the paragraph `text` (offsets `[7, 11)`) and the
list whose single item's paragraph `item` spans `[15, 19)`. -/
def cexTree : Node :=
  .mk { type := "root", position := some ⟨0, 24⟩ }
    [.mk { type := "containerDirective", name := "tip", position := some ⟨0, 23⟩ }
      [.mk { type := "paragraph", position := some ⟨7, 11⟩ }
         [.mk { type := "text", value := "text".data, position := some ⟨7, 11⟩ } []],
       .mk { type := "list", position := some ⟨13, 19⟩ }
         [.mk { type := "listItem", position := some ⟨13, 19⟩ }
            [.mk { type := "paragraph", position := some ⟨15, 19⟩ }
               [.mk { type := "text", value := "item".data, position := some ⟨15, 19⟩ } []]]]]]

@[simp] theorem Node.info_mk (i : NodeInfo) (c : List Node) : (Node.mk i c).info = i := rfl

@[simp] theorem Node.children_mk (i : NodeInfo) (c : List Node) : (Node.mk i c).children = c := rfl

@[simp] theorem Node.position_mk (i : NodeInfo) (c : List Node) :
    (Node.mk i c).position = i.position := rfl

@[simp] theorem Node.type_mk (i : NodeInfo) (c : List Node) :
    (Node.mk i c).type = i.type := rfl

theorem sortChanges_sorted (l : List Change) :
    (sortChanges l).Sorted fun a b => b.start ≤ a.start :=
  List.sorted_insertionSort _ l

theorem sortChanges_perm (l : List Change) : (sortChanges l).Perm l :=
  List.perm_insertionSort _ l

theorem take_append_slice_append_drop (s : List Char) (a b : Nat) (hab : a ≤ b) :
    s.take a ++ sliceN s a b ++ s.drop b = s := by
  have h1 : s.take a = (s.take b).take a := by
    rw [List.take_take, Nat.min_eq_left hab]
  have h2 : s.take a ++ sliceN s a b = s.take b := by
    rw [h1, sliceN, List.take_append_drop]
  rw [h2, List.take_append_drop]

/-- One-step unfolding of `parseNode` on an exposed node constructor. -/
theorem parseNode_mk (f : Node → List Char) (info : NodeInfo) (children : List Node)
    (root : Bool) :
    parseNode f (.mk info children) root =
    (if info.type = "link" then
      .ok (.mk { info with url := localizeUrl info.url } children, [])
    else if info.type = "mdxJsxFlowElement" then
      if info.name = "RelativeLink" then do
        let cs ← parseAttribute "title" (.mk info children)
        .ok (.mk info children, cs)
      else if info.name = "AccordionItem" then do
        let cs1 ← parseAttribute "title" (.mk info children)
        let (kids', cs2) ← parseRootList f children
        .ok (.mk info kids', cs1 ++ cs2)
      else .ok (.mk info children, [])
    else if info.type = "image" then .ok (.mk info children, [])
    else if info.type = "list" ∨ info.type = "listItem" ∨ info.type = "table" ∨
        info.type = "tableRow" then do
      let (kids', cs) ← parseRootList f children
      .ok (.mk info kids', cs)
    else if info.type = "heading" ∨ info.type = "paragraph" ∨
        info.type = "tableCell" then do
      let (kids', cs, text) ← parseChildren f children
      if root then do
        let (p0, pl) ← firstLastPos kids'
        .ok (.mk info kids',
             cs ++ [{ text := text, start := (p0.startOffset : Int),
                      «end» := (pl.endOffset : Int), notes := some "" }])
      else .ok (.mk info kids', cs)
    else if info.type = "containerDirective" then
      match children with
      | [] => .error (.typeError "cannot read data of undefined")
      | first :: rest =>
        if first.info.directiveLabel then
          match first.children with
          | [] => .error (.typeError "cannot read value of undefined")
          | fc :: _ =>
            match first.position with
            | none => .error (.typeError "cannot read start of undefined position")
            | some pf => do
              let labelChange : Change :=
                { type := some "containerDirectiveLabel", text := fc.value,
                  start := (pf.startOffset : Int) + 1,
                  «end» := (pf.endOffset : Int) - 1,
                  notes := some ("title for the \"" ++ info.name ++ "\" callout") }
              let (kids', cs, text) ← parseChildren f rest
              let (p0, pl) ← firstLastPos kids'
              .ok (.mk info kids',
                   labelChange :: cs ++
                     [{ text := text, start := (p0.startOffset : Int),
                        «end» := (pl.endOffset : Int),
                        notes := some ("content for the \"" ++ info.name ++ "\" callout") }])
        else do
          let (first', cs1) ← parseNode f first false
          let (rest', cs2, t2) ← parseChildren f rest
          let (p0, pl) ← firstLastPos (first' :: rest')
          .ok (.mk info (first' :: rest'),
               cs1 ++ cs2 ++
                 [{ text := childSegment f first' ++ t2,
                    start := (p0.startOffset : Int), «end» := (pl.endOffset : Int),
                    notes := some ("content for the \"" ++ info.name ++ "\" callout") }])
    else .ok (.mk info children, [])) := by
  cases children <;> rfl

/-! ## Claims about the Patch Applier -/
/-- C4: applying the Patch Applier with an empty change list returns the
source text unchanged, for every source text. -/
theorem spec_C4_empty_identity (content : List Char) :
    applyChanges content [] = .ok content := rfl

/-- C2: `replaceSubstring` fails with an `InvalidRange` error naming the
offending `(start, end)` pair exactly when `start < 0`, `end > len`, or
`start >= end`; otherwise it succeeds, returning the substituted text (so
a failing call produces no partially patched value). -/
theorem spec_C2_span_validation (original : List Char) (c : Change) :
    (replaceSubstring original c = .error (.invalidRange c.start c.«end») ↔
      (c.start < 0 ∨ (original.length : Int) < c.«end» ∨ c.«end» ≤ c.start)) ∧
    (¬(c.start < 0 ∨ (original.length : Int) < c.«end» ∨ c.«end» ≤ c.start) →
      replaceSubstring original c =
        .ok (original.take c.start.toNat ++ debugTransform c.text ++
          original.drop c.«end».toNat)) := by
  constructor
  · constructor
    · intro h
      by_cases hc : c.start < 0 ∨ (original.length : Int) < c.«end» ∨ c.«end» ≤ c.start
      · exact hc
      · rw [replaceSubstring, replaceSubstringD, if_neg hc] at h
        exact absurd h (by simp)
    · intro hc
      rw [replaceSubstring, replaceSubstringD, if_pos hc]
  · intro hc
    rw [replaceSubstring, replaceSubstringD, if_neg hc]
    rfl

/-- C2 witness: at `original = "ab"`, the change `(-1, 1)` fails with the
`InvalidRange` error naming `(-1, 1)`, and the valid change `(0, 1)`
succeeds. -/
theorem spec_C2_span_validation_witness :
    replaceSubstring "ab".data { text := "X".data, start := -1, «end» := 1 } =
      .error (.invalidRange (-1) 1) ∧
    replaceSubstring "ab".data { text := "X".data, start := 0, «end» := 1 } =
      .ok ("ab".data.take 0 ++ debugTransform "X".data ++ "ab".data.drop 1) := by
  constructor
  · exact (spec_C2_span_validation "ab".data
      { text := "X".data, start := -1, «end» := 1 }).1.2 (by norm_num)
  · exact (spec_C2_span_validation "ab".data
      { text := "X".data, start := 0, «end» := 1 }).2 (by norm_num)

/-- C1 counterexample: the identity round-trip fails on the code as
committed.  With `source = "ab"` and the single change `(0, 1)` whose
`text` `"a"` equals `source[0:1]`, the Patch Applier returns `"Ab"` (the
`DEBUG = true` global routes the replacement text through the
uppercase/space-marking transform), not `"ab"`. -/
theorem spec_C1_counterexample :
    "a".data = sliceN "ab".data 0 1 ∧
    applyChanges "ab".data [{ text := "a".data, start := 0, «end» := 1 }] =
      .ok "Ab".data ∧
    applyChanges "ab".data [{ text := "a".data, start := 0, «end» := 1 }] ≠
      .ok "ab".data := by
  refine ⟨rfl, rfl, fun h => ?_⟩
  rw [show applyChanges "ab".data [{ text := "a".data, start := 0, «end» := 1 }] =
    .ok "Ab".data from rfl] at h
  exact absurd (Except.ok.inj h) (by decide)

/-- C1 amended: as committed, `DEBUG = true`, and the identity round-trip
holds for a single change with `text = source[start:end]` (valid span)
only when the debug replacement-text transform is disabled: with
`debug = false`, applying that one change returns the source unchanged. -/
theorem spec_C1_identity_roundtrip :
    DEBUG = true ∧
    ∀ (source : List Char) (c : Change), 0 ≤ c.start → c.start < c.«end» →
      c.«end» ≤ (source.length : Int) →
      c.text = sliceN source c.start.toNat c.«end».toNat →
      applyChangesD false source [c] = .ok source := by
  refine ⟨rfl, fun source c h0 h1 h2 ht => ?_⟩
  have hsort : sortChanges [c] = [c] := rfl
  have hrep : replaceSubstringD false source c = .ok source := by
    rw [replaceSubstringD, if_neg (by omega)]
    show Except.ok (source.take c.start.toNat ++ c.text ++ source.drop c.«end».toNat) = _
    rw [ht, take_append_slice_append_drop source c.start.toNat c.«end».toNat (by omega)]
  rw [applyChangesD, hsort]
  show (replaceSubstringD false source c >>= fun b => List.foldlM _ b []) = _
  rw [hrep]
  rfl

/-- C1 witness for the amended round-trip at `source = "ab"`, change
`(1, 2)` with `text = "b"`. -/
theorem spec_C1_identity_roundtrip_witness :
    applyChangesD false "ab".data [{ text := "b".data, start := 1, «end» := 2 }] =
      .ok "ab".data :=
  spec_C1_identity_roundtrip.2 "ab".data { text := "b".data, start := 1, «end» := 2 }
    (by norm_num) (by norm_num) (by norm_num) (by decide)

/-- C3: `applyChanges` sorts the changes by descending `start` (a
descending-sorted permutation of the input) and folds the substitution
over the sorted list; on the concrete pair of non-overlapping changes
`(0,2) ↦ "XXX"` and `(4,5) ↦ "YY"` over `"abcdef"` (replacement lengths
differ from span lengths), descending application yields the intended
substitution at both spans, while ascending application yields a
different result. -/
theorem spec_C3_descending_order :
    (∀ (d : Bool) (content : List Char) (changes : List Change),
      applyChangesD d content changes =
        (sortChanges changes).foldlM (replaceSubstringD d) content) ∧
    (∀ changes : List Change,
      ((sortChanges changes).Sorted fun a b => b.start ≤ a.start) ∧
      (sortChanges changes).Perm changes) ∧
    sortChanges [{ text := "XXX".data, start := 0, «end» := 2 },
        { text := "YY".data, start := 4, «end» := 5 }] =
      [{ text := "YY".data, start := 4, «end» := 5 },
       { text := "XXX".data, start := 0, «end» := 2 }] ∧
    applyChanges "abcdef".data
        [{ text := "XXX".data, start := 0, «end» := 2 },
         { text := "YY".data, start := 4, «end» := 5 }] =
      .ok ("XXX".data ++ sliceN "abcdef".data 2 4 ++ "YY".data ++
        "abcdef".data.drop 5) ∧
    [{ text := "XXX".data, start := 0, «end» := 2 },
        { text := "YY".data, start := 4, «end» := 5 }].foldlM
        (replaceSubstringD DEBUG) "abcdef".data = .ok "XXXcYYef".data ∧
    "XXXcYYef".data ≠
      "XXX".data ++ sliceN "abcdef".data 2 4 ++ "YY".data ++ "abcdef".data.drop 5 := by
  refine ⟨fun d content changes => rfl,
    fun changes => ⟨sortChanges_sorted changes, sortChanges_perm changes⟩,
    rfl, rfl, rfl, by decide⟩

/-- C9: the Patch Applier sorts the caller-supplied change list in place
(modelled as the returned post-call list): after any call, including one
that fails on an invalid span, the caller's list is the
descending-by-start permutation of the input, and the patched text is
returned as a new value (the JS string argument is immutable and never
written).  The two concrete calls show the list actually being reordered,
in a successful call and in a failing one. -/
theorem spec_C9_sort_side_effect :
    (∀ (content : List Char) (changes : List Change),
      applyChangesWithState content changes =
        (applyChanges content changes, sortChanges changes) ∧
      ((applyChangesWithState content changes).2.Sorted fun a b => b.start ≤ a.start) ∧
      (applyChangesWithState content changes).2.Perm changes) ∧
    applyChangesWithState "ab".data
        [{ text := "X".data, start := 0, «end» := 1 },
         { text := "Y".data, start := 1, «end» := 2 }] =
      (.ok "XY".data,
       [{ text := "Y".data, start := 1, «end» := 2 },
        { text := "X".data, start := 0, «end» := 1 }]) ∧
    applyChangesWithState "ab".data
        [{ text := "X".data, start := -1, «end» := 1 },
         { text := "Y".data, start := 1, «end» := 2 }] =
      (.error (.invalidRange (-1) 1),
       [{ text := "Y".data, start := 1, «end» := 2 },
        { text := "X".data, start := -1, «end» := 1 }]) := by
  exact ⟨fun content changes =>
    ⟨rfl, sortChanges_sorted changes, sortChanges_perm changes⟩, rfl, rfl⟩

/-! ## Facts about the tree walk -/
theorem exceptBind_eq_ok {ε α β : Type _} {x : Except ε α} {g : α → Except ε β} {b : β} :
    x >>= g = .ok b ↔ ∃ a, x = .ok a ∧ g a = .ok b := by
  cases x <;> simp [Bind.bind, Except.bind]

theorem ok_pair_fst {ε α β : Type _} {x : α} {y : β} {a : α} {b : β}
    (h : (Except.ok (x, y) : Except ε (α × β)) = .ok (a, b)) : x = a := by
  injection h with h'
  exact congrArg Prod.fst h'

/-- `parseNode` never changes a node's position: every branch rebuilds the
node from its own `info` (possibly with a rewritten `url`) and parsed
children. -/
theorem parseNode_position (f : Node → List Char) (n : Node) (root : Bool)
    (n' : Node) (cs : List Change) (h : parseNode f n root = .ok (n', cs)) :
    n'.position = n.position := by
  rw [parseNode.eq_def] at h
  split at h
  rename_i info children
  by_cases h1 : info.type = "link"
  · rw [if_pos h1] at h
    have hx := ok_pair_fst h
    subst hx
    rfl
  rw [if_neg h1] at h
  by_cases h2 : info.type = "mdxJsxFlowElement"
  · rw [if_pos h2] at h
    by_cases h2a : info.name = "RelativeLink"
    · rw [if_pos h2a] at h
      rw [exceptBind_eq_ok] at h
      obtain ⟨a, -, h⟩ := h
      have hx := ok_pair_fst h
      subst hx
      rfl
    rw [if_neg h2a] at h
    by_cases h2b : info.name = "AccordionItem"
    · rw [if_pos h2b] at h
      rw [exceptBind_eq_ok] at h
      obtain ⟨a, -, h⟩ := h
      try dsimp only at h
      rw [exceptBind_eq_ok] at h
      obtain ⟨⟨kids', cs2⟩, -, h⟩ := h
      have hx := ok_pair_fst h
      subst hx
      rfl
    · rw [if_neg h2b] at h
      have hx := ok_pair_fst h
      subst hx
      rfl
  rw [if_neg h2] at h
  by_cases h3 : info.type = "image"
  · rw [if_pos h3] at h
    have hx := ok_pair_fst h
    subst hx
    rfl
  rw [if_neg h3] at h
  by_cases h4 : info.type = "list" ∨ info.type = "listItem" ∨ info.type = "table" ∨
      info.type = "tableRow"
  · rw [if_pos h4] at h
    rw [exceptBind_eq_ok] at h
    obtain ⟨⟨kids', cs2⟩, -, h⟩ := h
    have hx := ok_pair_fst h
    subst hx
    rfl
  rw [if_neg h4] at h
  by_cases h5 : info.type = "heading" ∨ info.type = "paragraph" ∨ info.type = "tableCell"
  · rw [if_pos h5] at h
    rw [exceptBind_eq_ok] at h
    obtain ⟨⟨kids', cs2, t⟩, -, h⟩ := h
    try dsimp only at h
    by_cases hr : root = true
    · rw [if_pos hr] at h
      rw [exceptBind_eq_ok] at h
      obtain ⟨⟨p0, pl⟩, -, h⟩ := h
      have hx := ok_pair_fst h
      subst hx
      rfl
    · rw [if_neg hr] at h
      have hx := ok_pair_fst h
      subst hx
      rfl
  rw [if_neg h5] at h
  by_cases h6 : info.type = "containerDirective"
  · rw [if_pos h6] at h
    cases children with
    | nil => exact absurd h (by simp)
    | cons first rest =>
      obtain ⟨finfo, fchildren⟩ := first
      dsimp only [Node.info_mk, Node.children_mk, Node.position_mk] at h
      by_cases hdl : finfo.directiveLabel = true
      · rw [if_pos hdl] at h
        cases fchildren with
        | nil => exact absurd h (by simp)
        | cons fc fcs =>
          try dsimp only at h
          cases hfp : finfo.position with
          | none =>
            rw [hfp] at h
            exact absurd h (by simp)
          | some pf =>
            rw [hfp] at h
            try dsimp only at h
            rw [exceptBind_eq_ok] at h
            obtain ⟨⟨kids', cs2, t⟩, -, h⟩ := h
            try dsimp only at h
            rw [exceptBind_eq_ok] at h
            obtain ⟨⟨p0, pl⟩, -, h⟩ := h
            have hx := ok_pair_fst h
            subst hx
            rfl
      · rw [if_neg hdl] at h
        rw [exceptBind_eq_ok] at h
        obtain ⟨⟨first', cs1⟩, -, h⟩ := h
        try dsimp only at h
        rw [exceptBind_eq_ok] at h
        obtain ⟨⟨rest', cs2, t2⟩, -, h⟩ := h
        try dsimp only at h
        rw [exceptBind_eq_ok] at h
        obtain ⟨⟨p0, pl⟩, -, h⟩ := h
        have hx := ok_pair_fst h
        subst hx
        rfl
  · rw [if_neg h6] at h
    have hx := ok_pair_fst h
    subst hx
    rfl

/-- `parseChildren` preserves the positions of the child list. -/
theorem parseChildren_positions (f : Node → List Char) (l : List Node)
    (l' : List Node) (cs : List Change) (t : List Char)
    (h : parseChildren f l = .ok (l', cs, t)) :
    l'.map Node.position = l.map Node.position := by
  induction l generalizing l' cs t with
  | nil =>
    rw [parseChildren] at h
    simp only [Except.ok.injEq, Prod.mk.injEq] at h
    obtain ⟨h1, -⟩ := h
    subst h1
    rfl
  | cons c cl ih =>
    rw [parseChildren] at h
    simp only [exceptBind_eq_ok] at h
    obtain ⟨⟨c', ch1⟩, hc, h2⟩ := h
    obtain ⟨⟨cl', ch2, t2⟩, hcl, h3⟩ := h2
    simp only [Except.ok.injEq, Prod.mk.injEq] at h3
    obtain ⟨h1, -⟩ := h3
    subst h1
    simp only [List.map_cons, ih cl' ch2 t2 hcl,
      parseNode_position f c false c' ch1 hc]

/-- `parseRootList` (`parseChildrenAsRoot`) preserves the positions of the
child list. -/
theorem parseRootList_positions (f : Node → List Char) (l : List Node)
    (l' : List Node) (cs : List Change)
    (h : parseRootList f l = .ok (l', cs)) :
    l'.map Node.position = l.map Node.position := by
  induction l generalizing l' cs with
  | nil =>
    rw [parseRootList] at h
    simp only [Except.ok.injEq, Prod.mk.injEq] at h
    obtain ⟨h1, -⟩ := h
    subst h1
    rfl
  | cons c cl ih =>
    rw [parseRootList] at h
    simp only [exceptBind_eq_ok] at h
    obtain ⟨⟨c', ch1⟩, hc, h2⟩ := h
    obtain ⟨⟨cl', ch2⟩, hcl, h3⟩ := h2
    simp only [Except.ok.injEq, Prod.mk.injEq] at h3
    obtain ⟨h1, -⟩ := h3
    subst h1
    simp only [List.map_cons, ih cl' ch2 hcl,
      parseNode_position f c true c' ch1 hc]

/-- Unpack a well-formed node into its guarantees. -/
theorem WFNode_parts {src : List Char} {n : Node} (h : WFNode src n = true) :
    ∃ p, n.position = some p ∧ p.startOffset < p.endOffset ∧ p.endOffset ≤ src.length ∧
      (n.info.directiveLabel = true → p.startOffset + 2 < p.endOffset) ∧
      (n.info.type = "yaml" → p.endOffset = p.startOffset + 8 + n.info.value.length) ∧
      (∀ a ∈ n.info.attributes, attrWF p a = true) ∧
      (∀ e ∈ n.info.esBody, esWF p e = true) ∧
      childrenWithin p n.children = true ∧
      childrenOrdered n.children = true ∧
      WFList src n.children = true := by
  obtain ⟨info, children⟩ := n
  rw [WFNode] at h
  cases hp : info.position with
  | none => rw [hp] at h; exact absurd h (by simp)
  | some p =>
    rw [hp] at h
    simp only [Bool.and_eq_true, decide_eq_true_eq, List.all_eq_true, Bool.or_eq_true,
      Bool.not_eq_true'] at h
    obtain ⟨⟨⟨⟨⟨⟨⟨⟨h1, h2⟩, h3⟩, h4⟩, h5⟩, h6⟩, h7⟩, h8⟩, h9⟩ := h
    refine ⟨p, by simpa using hp, h1, h2, ?_, ?_, ?_, ?_, h7, h8, h9⟩
    · intro hdl
      rcases h3 with h3 | h3
      · rw [Node.info_mk] at hdl; rw [hdl] at h3; cases h3
      · exact h3
    · intro hty
      rcases h4 with h4 | h4
      · simp only [Node.info_mk] at hty
        rw [hty] at h4
        simp at h4
      · exact h4
    · simpa using h5
    · simpa using h6

/-- Member form of `WFList`. -/
theorem WFList_mem {src : List Char} : ∀ {l : List Node}, WFList src l = true →
    ∀ n ∈ l, WFNode src n = true := by
  intro l
  induction l with
  | nil => intro h n hn; cases hn
  | cons c cs ih =>
    intro h n hn
    rw [WFList, Bool.and_eq_true] at h
    rcases List.mem_cons.mp hn with rfl | hn'
    · exact h.1
    · exact ih h.2 n hn'

/-- `WFList` on the tail. -/
theorem WFList_tail {src : List Char} {c : Node} {cs : List Node}
    (h : WFList src (c :: cs) = true) : WFList src cs = true := by
  rw [WFList, Bool.and_eq_true] at h
  exact h.2

/-- Member form of `childrenWithin`. -/
theorem childrenWithin_mem {p : Pos} : ∀ {l : List Node}, childrenWithin p l = true →
    ∀ n ∈ l, ∃ q, n.position = some q ∧ p.startOffset ≤ q.startOffset ∧
      q.endOffset ≤ p.endOffset := by
  intro l h n hn
  rw [childrenWithin, List.all_eq_true] at h
  have hx := h n hn
  cases hq : n.position with
  | none => rw [hq] at hx; exact absurd hx (by simp)
  | some q =>
    rw [hq] at hx
    simp only [Bool.and_eq_true, decide_eq_true_eq] at hx
    exact ⟨q, rfl, hx.1, hx.2⟩

/-- `childrenWithin` on the tail. -/
theorem childrenWithin_tail {p : Pos} {c : Node} {l : List Node}
    (h : childrenWithin p (c :: l) = true) : childrenWithin p l = true := by
  rw [childrenWithin, List.all_cons, Bool.and_eq_true] at h
  rw [childrenWithin]
  exact h.2

/-- `childrenOrdered` on the tail. -/
theorem childrenOrdered_tail {c : Node} {l : List Node}
    (h : childrenOrdered (c :: l) = true) : childrenOrdered l = true := by
  cases l with
  | nil => rfl
  | cons b rest =>
    rw [childrenOrdered, Bool.and_eq_true] at h
    exact h.2

/-- In an ordered child list whose members all carry proper spans, the
first child's start lies strictly before the last child's end. -/
theorem ordered_head_lastD : ∀ (ks : List Node) (k0 : Node),
    childrenOrdered (k0 :: ks) = true →
    (∀ n ∈ k0 :: ks, ∃ q, n.position = some q ∧ q.startOffset < q.endOffset) →
    ∀ {p0 pl : Pos}, k0.position = some p0 → (ks.getLastD k0).position = some pl →
    p0.startOffset < pl.endOffset := by
  intro ks
  induction ks with
  | nil =>
    intro k0 hord hpos p0 pl h0 hl
    obtain ⟨q, hq, hqlt⟩ := hpos k0 (List.mem_cons_self _ _)
    rw [List.getLastD] at hl
    rw [h0] at hq hl
    injection hq with hq'
    injection hl with hl'
    rw [← hq'] at hqlt
    rw [← hl']
    exact hqlt
  | cons k1 ks ih =>
    intro k0 hord hpos p0 pl h0 hl
    obtain ⟨q1, hq1, hq1lt⟩ := hpos k1 (by simp)
    have hord' : childrenOrdered (k1 :: ks) = true := childrenOrdered_tail hord
    have hadj : p0.endOffset ≤ q1.startOffset := by
      rw [childrenOrdered, Bool.and_eq_true] at hord
      have := hord.1
      rw [h0, hq1] at this
      simpa using this
    have hl'' : (ks.getLastD k1).position = some pl := by
      rw [List.getLastD_cons] at hl
      exact hl
    have h1 : q1.startOffset < pl.endOffset :=
      ih k1 hord' (fun n hn => hpos n (List.mem_cons_of_mem _ hn)) hq1 hl''
    obtain ⟨q0, hq0, hq0lt⟩ := hpos k0 (List.mem_cons_self _ _)
    rw [h0] at hq0
    injection hq0 with hq0'
    rw [← hq0'] at hq0lt
    omega

/-- Inversion of `parseAttribute`: either no change (attribute missing) or
exactly one change built from the found attribute's span. -/
theorem parseAttribute_ok {name : String} {node : Node} {cs : List Change}
    (h : parseAttribute name node = .ok cs) :
    cs = [] ∨ ∃ attr q, attr ∈ node.info.attributes ∧ attr.name = name ∧
      attr.position = some q ∧
      cs = [{ text := attr.value,
              start := (q.startOffset : Int) + attr.name.length + 1,
              «end» := (q.endOffset : Int) - 1,
              notes := some ("'" ++ name ++ "' attribute for " ++ node.name) }] := by
  rw [parseAttribute] at h
  cases hf : node.info.attributes.find? (fun a => a.name = name) with
  | none =>
    rw [hf] at h
    injection h with h'
    exact Or.inl h'.symm
  | some attr =>
    rw [hf] at h
    dsimp only at h
    cases hq : attr.position with
    | none => rw [hq] at h; exact absurd h (by simp)
    | some q =>
      rw [hq] at h
      injection h with h'
      refine Or.inr ⟨attr, q, List.mem_of_find?_eq_some hf, ?_, hq, h'.symm⟩
      have := List.find?_some hf
      simpa using this

/-- The default-last element of a list is a member of the padded list. -/
theorem getLastD_mem : ∀ (l : List Node) (d : Node), l.getLastD d ∈ d :: l := by
  intro l
  induction l with
  | nil =>
    intro d
    simp [List.getLastD]
  | cons a l ih =>
    intro d
    rw [List.getLastD_cons]
    exact List.mem_cons_of_mem d (ih a)

/-- `getLastD` commutes with mapping a function over the list. -/
theorem getLastD_map (g : Node → Option Pos) : ∀ (l : List Node) (d : Node),
    g (l.getLastD d) = (l.map g).getLastD (g d) := by
  intro l
  induction l with
  | nil => intro d; rfl
  | cons a l ih =>
    intro d
    rw [List.getLastD_cons, List.map_cons, List.getLastD_cons]
    exact ih a

/-- Equal position maps give equal head and default-last positions. -/
theorem head_last_positions {k0 r0 : Node} {ks rs : List Node}
    (hmap : (k0 :: ks).map Node.position = (r0 :: rs).map Node.position) :
    r0.position = k0.position ∧
    (rs.getLastD r0).position = (ks.getLastD k0).position := by
  simp only [List.map_cons, List.cons.injEq] at hmap
  obtain ⟨hh, ht⟩ := hmap
  refine ⟨hh.symm, ?_⟩
  rw [getLastD_map Node.position rs r0, getLastD_map Node.position ks k0, ht, hh]

theorem ok_pair_snd {ε α β : Type _} {x : α} {y : β} {a : α} {b : β}
    (h : (Except.ok (x, y) : Except ε (α × β)) = .ok (a, b)) : y = b := by
  injection h with h'
  exact congrArg Prod.snd h'

/-- Inversion of `firstLastPos`: success yields a nonempty list whose head
and last nodes carry the returned positions. -/
theorem firstLastPos_ok {l : List Node} {p0 pl : Pos}
    (h : firstLastPos l = .ok (p0, pl)) :
    ∃ k0 ks, l = k0 :: ks ∧ k0.position = some p0 ∧
      (ks.getLastD k0).position = some pl := by
  cases l with
  | nil => exact absurd h (by simp [firstLastPos])
  | cons k0 ks =>
    refine ⟨k0, ks, rfl, ?_⟩
    rw [firstLastPos] at h
    simp only [exceptBind_eq_ok] at h
    obtain ⟨a, ha, h⟩ := h
    obtain ⟨b, hb, h⟩ := h
    rw [getPos] at ha hb
    cases hp : k0.position with
    | none => rw [hp] at ha; exact absurd ha (by simp)
    | some q =>
      rw [hp] at ha
      cases hq : (ks.getLastD k0).position with
      | none => rw [hq] at hb; exact absurd hb (by simp)
      | some q' =>
        rw [hq] at hb
        injection ha with ha'
        injection hb with hb'
        injection h with h'
        obtain ⟨h1, h2⟩ := Prod.mk.injEq .. ▸ h'
        exact ⟨congrArg some (ha'.trans h1), congrArg some (hb'.trans h2)⟩

/-- C8: for a directive-container node whose first child carries the label
marker, the walker emits a DirectiveLabel change spanning the label child's
span narrowed by one offset on each side, with notes naming the directive's
variant; removes the label child (the reconstructed node keeps only the
remaining children); and finally emits a ContentBlock change spanning from
the first remaining child's start to the last remaining child's end, with
notes naming the variant. -/
theorem spec_C8_directive_label (f : Node → List Char) (node : Node)
    (first : Node) (rest : List Node) (root : Bool) (fc : Node) (fcs : List Node)
    (pf : Pos) (n' : Node) (cs : List Change)
    (htype : node.type = "containerDirective")
    (hch : node.children = first :: rest)
    (hdl : first.info.directiveLabel = true)
    (hfc : first.children = fc :: fcs)
    (hfp : first.position = some pf)
    (h : parseNode f node root = .ok (n', cs)) :
    ∃ (mid : List Change) (text : List Char) (r0 rl : Node) (p0 pl : Pos),
      rest.head? = some r0 ∧ rest.getLast? = some rl ∧
      r0.position = some p0 ∧ rl.position = some pl ∧
      cs = { type := some "containerDirectiveLabel", text := fc.value,
             start := (pf.startOffset : Int) + 1, «end» := (pf.endOffset : Int) - 1,
             notes := some ("title for the \"" ++ node.name ++ "\" callout") } ::
        (mid ++ [{ text := text, start := (p0.startOffset : Int),
                   «end» := (pl.endOffset : Int),
                   notes := some ("content for the \"" ++ node.name ++ "\" callout") }]) ∧
      n'.children.length = rest.length := by
  rw [parseNode.eq_def] at h
  split at h
  rename_i info children
  simp only [Node.type_mk] at htype
  simp only [Node.children_mk] at hch
  subst hch
  rw [if_neg (by simp [htype]), if_neg (by simp [htype]), if_neg (by simp [htype]),
    if_neg (by simp [htype]), if_neg (by simp [htype]), if_pos htype] at h
  obtain ⟨finfo, fchildren⟩ := first
  simp only [Node.info_mk] at hdl
  simp only [Node.children_mk] at hfc
  simp only [Node.position_mk] at hfp
  subst hfc
  dsimp only [Node.info_mk, Node.children_mk, Node.position_mk] at h
  rw [if_pos hdl, hfp] at h
  try dsimp only at h
  rw [exceptBind_eq_ok] at h
  obtain ⟨⟨kids', cs0, text⟩, hkids, h⟩ := h
  try dsimp only at h
  rw [exceptBind_eq_ok] at h
  obtain ⟨⟨p0, pl⟩, hfl, h⟩ := h
  injection h with h'
  have hn' : Node.mk info kids' = n' := congrArg Prod.fst h'
  have hcs := congrArg Prod.snd h'
  dsimp only at hcs
  obtain ⟨k0, ks, hkl, hk0, hkl'⟩ := firstLastPos_ok hfl
  have hmap := parseChildren_positions f rest kids' cs0 text hkids
  subst hkl
  cases rest with
  | nil => exact absurd hmap (by simp)
  | cons r0 rs =>
    simp only [List.map_cons, List.cons.injEq] at hmap
    obtain ⟨hh, ht⟩ := hmap
    refine ⟨cs0, text, r0, (rs.getLast?.getD r0), p0, pl, rfl, ?_, ?_, ?_, ?_, ?_⟩
    · rw [List.getLast?_cons]
    · rw [← hh, hk0]
    · have h1 : ((k0 :: ks).map Node.position).getLast? =
          ((r0 :: rs).map Node.position).getLast? := by
        rw [List.map_cons, List.map_cons, hh, ht]
      rw [List.getLast?_map, List.getLast?_map, List.getLast?_cons, List.getLast?_cons] at h1
      simp only [Option.map_some'] at h1
      injection h1 with h1'
      have h2 : (ks.getLastD k0) = ks.getLast?.getD k0 := by
        cases ks with
        | nil => rfl
        | cons a l => simp [List.getLastD_eq_getLast?]
      rw [← h1', ← h2, hkl']
    · exact hcs.symm
    · rw [← hn']
      simp only [Node.children_mk]
      have hlen := congrArg List.length
        (parseChildren_positions f (r0 :: rs) (k0 :: ks) cs0 text hkids)
      simpa using hlen

/-- C8 witness: on the concrete `tip` directive the walker emits the
DirectiveLabel change spanning `[7, 15)` (the label child's span narrowed
by one on each side) and the ContentBlock change spanning `[17, 21)` (the
single remaining child), both with notes naming the `tip` variant. -/
theorem spec_C8_directive_label_witness :
    ∃ (mid : List Change) (text : List Char) (r0 rl : Node) (p0 pl : Pos),
      [c8Para].head? = some r0 ∧ [c8Para].getLast? = some rl ∧
      r0.position = some p0 ∧ rl.position = some pl ∧
      ([{ type := some "containerDirectiveLabel", text := "See also".data,
          start := 7, «end» := 15,
          notes := some "title for the \"tip\" callout" },
        { text := ([] : List Char), start := 17, «end» := 21,
          notes := some "content for the \"tip\" callout" }] =
        { type := some "containerDirectiveLabel",
          text := (Node.mk { type := "text", value := "See also".data,
                             position := some ⟨7, 15⟩ } []).value,
          start := (((6 : Nat)) : Int) + 1, «end» := (((16 : Nat)) : Int) - 1,
          notes := some ("title for the \"" ++ c8Directive.name ++ "\" callout") } ::
          (mid ++ [{ text := text, start := (p0.startOffset : Int),
                     «end» := (pl.endOffset : Int),
                     notes := some ("content for the \"" ++ c8Directive.name ++
                       "\" callout") }])) ∧
      (Node.mk c8Directive.info [c8Para]).children.length = [c8Para].length :=
  spec_C8_directive_label (fun n => n.value) c8Directive c8Label [c8Para] true
    (.mk { type := "text", value := "See also".data, position := some ⟨7, 15⟩ } [])
    [] ⟨6, 16⟩ (.mk c8Directive.info [c8Para])
    [{ type := some "containerDirectiveLabel", text := "See also".data,
       start := 7, «end» := 15,
       notes := some "title for the \"tip\" callout" },
     { text := ([] : List Char), start := 17, «end» := 21,
       notes := some "content for the \"tip\" callout" }]
    rfl rfl rfl rfl rfl rfl

/-- C10: a directive-container node with no children, or whose only child
is the label, makes the walker fail on that node (a thrown TypeError)
rather than emit no change: the branch always reads the first and last
remaining children's positions to emit its ContentBlock change. -/
theorem spec_C10_directive_requires_child (f : Node → List Char) (node : Node)
    (root : Bool) (htype : node.type = "containerDirective")
    (hch : node.children = [] ∨
      ∃ lab, node.children = [lab] ∧ lab.info.directiveLabel = true) :
    walkFailed (parseNode f node root) = true := by
  rw [parseNode.eq_def]
  split
  rename_i info children
  simp only [Node.type_mk] at htype
  simp only [Node.children_mk] at hch
  rw [if_neg (by simp [htype]), if_neg (by simp [htype]), if_neg (by simp [htype]),
    if_neg (by simp [htype]), if_neg (by simp [htype]), if_pos htype]
  rcases hch with hnil | ⟨lab, hlab, hdl⟩
  · subst hnil
    rfl
  · subst hlab
    obtain ⟨linfo, lchildren⟩ := lab
    simp only [Node.info_mk] at hdl
    dsimp only [Node.info_mk, Node.children_mk, Node.position_mk]
    rw [if_pos hdl]
    cases lchildren with
    | nil => rfl
    | cons fc fcs =>
      try dsimp only
      cases hp : linfo.position with
      | none => rfl
      | some pf => rfl

/-- C10 witness: the walker fails on a childless `tip` directive and on a
`tip` directive whose only child is its label. -/
theorem spec_C10_directive_requires_child_witness :
    walkFailed (parseNode (fun n => n.value)
      (.mk { type := "containerDirective", name := "tip" } []) true) = true ∧
    walkFailed (parseNode (fun n => n.value)
      (.mk { type := "containerDirective", name := "tip" }
        [.mk { type := "paragraph", directiveLabel := true, position := some ⟨6, 16⟩ }
           [.mk { type := "text", value := "See also".data, position := some ⟨7, 15⟩ } []]])
      true) = true :=
  ⟨spec_C10_directive_requires_child (fun n => n.value) _ true rfl (Or.inl rfl),
   spec_C10_directive_requires_child (fun n => n.value) _ true rfl
     (Or.inr ⟨_, rfl, rfl⟩)⟩

/-- Spans inside an inner span are inside an enclosing span. -/
theorem within_mono {c : Change} {q p : Pos}
    (hq : (q.startOffset : Int) ≤ c.start ∧ c.start < c.«end» ∧
      c.«end» ≤ (q.endOffset : Int))
    (h1 : p.startOffset ≤ q.startOffset) (h2 : q.endOffset ≤ p.endOffset) :
    (p.startOffset : Int) ≤ c.start ∧ c.start < c.«end» ∧
    c.«end» ≤ (p.endOffset : Int) := by
  obtain ⟨a, b, c'⟩ := hq
  refine ⟨?_, b, ?_⟩ <;> omega

/-- An emitted attribute change lies inside the node's span with a proper
span of its own, given the node's attribute well-formedness. -/
theorem attrChanges_within {node : Node} {cs : List Change} {p : Pos} {name : String}
    (h : parseAttribute name node = .ok cs)
    (hattrs : ∀ a ∈ node.info.attributes, attrWF p a = true) :
    ∀ c ∈ cs, (p.startOffset : Int) ≤ c.start ∧ c.start < c.«end» ∧
      c.«end» ≤ (p.endOffset : Int) := by
  rcases parseAttribute_ok h with h0 | ⟨attr, q, hmem, hname, hq, h0⟩
  · subst h0
    intro c hc
    cases hc
  · subst h0
    intro c hc
    rw [List.mem_singleton] at hc
    subst hc
    have hwf := hattrs attr hmem
    unfold attrWF at hwf
    rw [hq] at hwf
    simp only [Bool.and_eq_true, decide_eq_true_eq] at hwf
    obtain ⟨⟨hw1, hw2⟩, hw3⟩ := hwf
    dsimp only
    refine ⟨?_, ?_, ?_⟩ <;> omega

/-- The ContentBlock span `[first child's start, last child's end]` read
from the parsed children is a proper span inside the parent span. -/
theorem contentSpan_within {src : List Char} {ks kids' : List Node} {p p0 pl : Pos}
    (hmap : kids'.map Node.position = ks.map Node.position)
    (hfl : firstLastPos kids' = .ok (p0, pl))
    (hwithin : childrenWithin p ks = true)
    (hwf : WFList src ks = true)
    (hord : childrenOrdered ks = true) :
    p.startOffset ≤ p0.startOffset ∧ p0.startOffset < pl.endOffset ∧
    pl.endOffset ≤ p.endOffset := by
  obtain ⟨k0, kks, rfl, hk0, hkl⟩ := firstLastPos_ok hfl
  cases ks with
  | nil => exact absurd hmap (by simp)
  | cons r0 rs =>
    obtain ⟨hh, hlast⟩ := head_last_positions hmap
    have hr0 : r0.position = some p0 := by rw [hh, hk0]
    have hrl : (rs.getLastD r0).position = some pl := by rw [hlast, hkl]
    have hpos : ∀ n ∈ r0 :: rs, ∃ q, n.position = some q ∧
        q.startOffset < q.endOffset := by
      intro n hn
      obtain ⟨q, hq, hlt, -⟩ := WFNode_parts (WFList_mem hwf n hn)
      exact ⟨q, hq, hlt⟩
    have hstrict : p0.startOffset < pl.endOffset :=
      ordered_head_lastD rs r0 hord hpos hr0 hrl
    obtain ⟨q0, hq0, ha, hb⟩ := childrenWithin_mem hwithin r0 (List.mem_cons_self _ _)
    rw [hr0] at hq0
    injection hq0 with hq0'
    obtain ⟨ql, hql, hc', hd⟩ := childrenWithin_mem hwithin (rs.getLastD r0)
      (getLastD_mem rs r0)
    rw [hrl] at hql
    injection hql with hql'
    refine ⟨?_, hstrict, ?_⟩
    · rw [hq0']
      exact ha
    · rw [hql']
      exact hd

/-- `WFNode_parts` specialized to an exposed constructor and a known
position. -/
theorem WFNode_parts_mk {src : List Char} {i : NodeInfo} {children : List Node}
    {p : Pos} (h : WFNode src (.mk i children) = true) (hp : i.position = some p) :
    p.startOffset < p.endOffset ∧ p.endOffset ≤ src.length ∧
    (i.directiveLabel = true → p.startOffset + 2 < p.endOffset) ∧
    (i.type = "yaml" → p.endOffset = p.startOffset + 8 + i.value.length) ∧
    (∀ a ∈ i.attributes, attrWF p a = true) ∧
    (∀ e ∈ i.esBody, esWF p e = true) ∧
    childrenWithin p children = true ∧ childrenOrdered children = true ∧
    WFList src children = true := by
  obtain ⟨p', hp', h1, h2, h3, h4, h5, h6, h7, h8, h9⟩ := WFNode_parts h
  simp only [Node.position_mk] at hp'
  rw [hp] at hp'
  injection hp' with hpe
  subst hpe
  simp only [Node.info_mk, Node.children_mk] at h3 h4 h5 h6 h7 h8 h9
  exact ⟨h1, h2, h3, h4, h5, h6, h7, h8, h9⟩

/-- Every change emitted by the Content Tree Walker on a well-formed node
lies inside that node's span and has a proper span of its own (and the
same for the two child-list walkers, relative to a span enclosing every
child). -/
theorem parse_within (src : List Char) (f : Node → List Char) :
    (∀ (n : Node) (root : Bool), ∀ (n' : Node) (cs : List Change),
      parseNode f n root = .ok (n', cs) → WFNode src n = true →
      ∀ p : Pos, n.position = some p → ∀ c ∈ cs,
        (p.startOffset : Int) ≤ c.start ∧ c.start < c.«end» ∧
        c.«end» ≤ (p.endOffset : Int)) ∧
    (∀ l : List Node, ∀ (l' : List Node) (cs : List Change) (t : List Char),
      parseChildren f l = .ok (l', cs, t) → WFList src l = true →
      ∀ p : Pos, childrenWithin p l = true → ∀ c ∈ cs,
        (p.startOffset : Int) ≤ c.start ∧ c.start < c.«end» ∧
        c.«end» ≤ (p.endOffset : Int)) ∧
    (∀ l : List Node, ∀ (l' : List Node) (cs : List Change),
      parseRootList f l = .ok (l', cs) → WFList src l = true →
      ∀ p : Pos, childrenWithin p l = true → ∀ c ∈ cs,
        (p.startOffset : Int) ≤ c.start ∧ c.start < c.«end» ∧
        c.«end» ≤ (p.endOffset : Int)) := by
  refine parseNode.mutual_induct f (fun n root => ∀ (n' : Node) (cs : List Change),
      parseNode f n root = .ok (n', cs) → WFNode src n = true →
      ∀ p : Pos, n.position = some p → ∀ c ∈ cs,
        (p.startOffset : Int) ≤ c.start ∧ c.start < c.«end» ∧
        c.«end» ≤ (p.endOffset : Int))
    (fun l => ∀ (l' : List Node) (cs : List Change) (t : List Char),
      parseChildren f l = .ok (l', cs, t) → WFList src l = true →
      ∀ p : Pos, childrenWithin p l = true → ∀ c ∈ cs,
        (p.startOffset : Int) ≤ c.start ∧ c.start < c.«end» ∧
        c.«end» ≤ (p.endOffset : Int))
    (fun l => ∀ (l' : List Node) (cs : List Change),
      parseRootList f l = .ok (l', cs) → WFList src l = true →
      ∀ p : Pos, childrenWithin p l = true → ∀ c ∈ cs,
        (p.startOffset : Int) ≤ c.start ∧ c.start < c.«end» ∧
        c.«end» ≤ (p.endOffset : Int))
    ?_ ?_ ?_ ?_ ?_ ?_ ?_ ?_ ?_ ?_ ?_ ?_ ?_ ?_ ?_ ?_ ?_
  · -- link
    intro i children root h1 n' cs h hwf p hp c hc
    rw [parseNode_mk] at h
    rw [if_pos h1] at h
    have hcs := ok_pair_snd h
    subst hcs
    cases hc
  · -- RelativeLink
    intro i children root h1 h2 h2a n' cs h hwf p hp
    rw [parseNode_mk] at h
    rw [if_neg h1, if_pos h2, if_pos h2a] at h
    rw [exceptBind_eq_ok] at h
    obtain ⟨cs1, hattr, h⟩ := h
    have hcs := ok_pair_snd h
    subst hcs
    simp only [Node.position_mk] at hp
    obtain ⟨-, -, -, -, hattrs, -, -, -, -⟩ := WFNode_parts_mk hwf hp
    exact attrChanges_within hattr hattrs
  · -- AccordionItem
    intro i children root h1 h2 h2a h2b ih3 n' cs h hwf p hp
    rw [parseNode_mk] at h
    rw [if_neg h1, if_pos h2, if_neg h2a, if_pos h2b] at h
    rw [exceptBind_eq_ok] at h
    obtain ⟨cs1, hattr, h⟩ := h
    try dsimp only at h
    rw [exceptBind_eq_ok] at h
    obtain ⟨⟨kids', cs2⟩, hroot, h⟩ := h
    have hcs := ok_pair_snd h
    subst hcs
    simp only [Node.position_mk] at hp
    obtain ⟨-, -, -, -, hattrs, -, hwithin, -, hwflist⟩ := WFNode_parts_mk hwf hp
    intro c hc
    rcases List.mem_append.mp hc with hc1 | hc2
    · exact attrChanges_within hattr hattrs c hc1
    · exact ih3 kids' cs2 hroot hwflist p hwithin c hc2
  · -- other flow element
    intro i children root h1 h2 h2a h2b n' cs h hwf p hp c hc
    rw [parseNode_mk] at h
    rw [if_neg h1, if_pos h2, if_neg h2a, if_neg h2b] at h
    have hcs := ok_pair_snd h
    subst hcs
    cases hc
  · -- image
    intro i children root h1 h2 h3 n' cs h hwf p hp c hc
    rw [parseNode_mk] at h
    rw [if_neg h1, if_neg h2, if_pos h3] at h
    have hcs := ok_pair_snd h
    subst hcs
    cases hc
  · -- list-like containers
    intro i children root h1 h2 h3 h4 ih n' cs h hwf p hp
    rw [parseNode_mk] at h
    rw [if_neg h1, if_neg h2, if_neg h3, if_pos h4] at h
    rw [exceptBind_eq_ok] at h
    obtain ⟨⟨kids', cs2⟩, hroot, h⟩ := h
    have hcs := ok_pair_snd h
    subst hcs
    simp only [Node.position_mk] at hp
    obtain ⟨-, -, -, -, -, -, hwithin, -, hwflist⟩ := WFNode_parts_mk hwf hp
    exact fun c hc => ih kids' cs2 hroot hwflist p hwithin c hc
  · -- heading, paragraph, tableCell
    intro i children root h1 h2 h3 h4 h5 ih n' cs h hwf p hp
    rw [parseNode_mk] at h
    rw [if_neg h1, if_neg h2, if_neg h3, if_neg h4, if_pos h5] at h
    rw [exceptBind_eq_ok] at h
    obtain ⟨⟨kids', cs0, t0⟩, hpc, h⟩ := h
    try dsimp only at h
    simp only [Node.position_mk] at hp
    obtain ⟨-, -, -, -, -, -, hwithin, hord, hwflist⟩ := WFNode_parts_mk hwf hp
    by_cases hr : root = true
    · rw [if_pos hr] at h
      rw [exceptBind_eq_ok] at h
      obtain ⟨⟨p0, pl⟩, hfl, h⟩ := h
      have hcs := ok_pair_snd h
      subst hcs
      intro c hc
      rcases List.mem_append.mp hc with hc1 | hc2
      · exact ih kids' cs0 t0 hpc hwflist p hwithin c hc1
      · rw [List.mem_singleton] at hc2
        subst hc2
        have hmap := parseChildren_positions f children kids' cs0 t0 hpc
        obtain ⟨ha, hb, hcx⟩ := contentSpan_within hmap hfl hwithin hwflist hord
        dsimp only
        refine ⟨?_, ?_, ?_⟩ <;> omega
    · rw [if_neg hr] at h
      have hcs := ok_pair_snd h
      subst hcs
      exact fun c hc => ih kids' cs0 t0 hpc hwflist p hwithin c hc
  · -- containerDirective, no children
    intro i root h1 h2 h3 h4 h5 h6 n' cs h hwf p hp
    rw [parseNode_mk] at h
    rw [if_neg h1, if_neg h2, if_neg h3, if_neg h4, if_neg h5, if_pos h6] at h
    simp at h
  · -- containerDirective, label child with no children of its own
    intro i root h1 h2 h3 h4 h5 h6 k0 ks hdl hk0ch n' cs h hwf p hp
    rw [parseNode_mk] at h
    rw [if_neg h1, if_neg h2, if_neg h3, if_neg h4, if_neg h5, if_pos h6] at h
    try dsimp only at h
    rw [if_pos hdl, hk0ch] at h
    simp at h
  · -- containerDirective, label child without position
    intro i root h1 h2 h3 h4 h5 h6 k0 ks hdl fc fcs hk0ch hpos n' cs h hwf p hp
    rw [parseNode_mk] at h
    rw [if_neg h1, if_neg h2, if_neg h3, if_neg h4, if_neg h5, if_pos h6] at h
    try dsimp only at h
    rw [if_pos hdl, hk0ch] at h
    try dsimp only at h
    rw [hpos] at h
    simp at h
  · -- containerDirective with label
    intro i root h1 h2 h3 h4 h5 h6 k0 ks hdl fc fcs hk0ch pf hpf ih2 n' cs h hwf p hp
    rw [parseNode_mk] at h
    rw [if_neg h1, if_neg h2, if_neg h3, if_neg h4, if_neg h5, if_pos h6] at h
    try dsimp only at h
    rw [if_pos hdl, hk0ch] at h
    try dsimp only at h
    rw [hpf] at h
    try dsimp only at h
    rw [exceptBind_eq_ok] at h
    obtain ⟨⟨kids', cs0, t0⟩, hpc, h⟩ := h
    try dsimp only at h
    rw [exceptBind_eq_ok] at h
    obtain ⟨⟨p0, pl⟩, hfl, h⟩ := h
    have hcs := ok_pair_snd h
    subst hcs
    simp only [Node.position_mk] at hp
    obtain ⟨-, -, -, -, -, -, hwithin, hord, hwflist⟩ := WFNode_parts_mk hwf hp
    have hwfk0 : WFNode src k0 = true := WFList_mem hwflist k0 (List.mem_cons_self _ _)
    obtain ⟨pf', hpf', hlt', -, hdir', -⟩ := WFNode_parts hwfk0
    rw [hpf] at hpf'
    injection hpf' with hpfe
    subst hpfe
    have hstrict : pf.startOffset + 2 < pf.endOffset := hdir' hdl
    obtain ⟨qk, hqk, hqa, hqb⟩ := childrenWithin_mem hwithin k0 (List.mem_cons_self _ _)
    rw [hpf] at hqk
    injection hqk with hqke
    subst hqke
    intro c hc
    rcases List.mem_cons.mp hc with rfl | hc'
    · dsimp only
      refine ⟨?_, ?_, ?_⟩ <;> omega
    · rcases List.mem_append.mp hc' with hc1 | hc2
      · exact ih2 kids' cs0 t0 hpc (WFList_tail hwflist) p
          (childrenWithin_tail hwithin) c hc1
      · rw [List.mem_singleton] at hc2
        subst hc2
        have hmap := parseChildren_positions f ks kids' cs0 t0 hpc
        obtain ⟨ha, hb, hcx⟩ := contentSpan_within hmap hfl
          (childrenWithin_tail hwithin) (WFList_tail hwflist)
          (childrenOrdered_tail hord)
        dsimp only
        refine ⟨?_, ?_, ?_⟩ <;> omega
  · -- containerDirective without label
    intro i root h1 h2 h3 h4 h5 h6 k0 ks hdl ih1 ih2 n' cs h hwf p hp
    rw [parseNode_mk] at h
    rw [if_neg h1, if_neg h2, if_neg h3, if_neg h4, if_neg h5, if_pos h6] at h
    try dsimp only at h
    rw [if_neg hdl] at h
    rw [exceptBind_eq_ok] at h
    obtain ⟨⟨first', cs1⟩, hk0p, h⟩ := h
    try dsimp only at h
    rw [exceptBind_eq_ok] at h
    obtain ⟨⟨rest', cs2, t2⟩, hpc, h⟩ := h
    try dsimp only at h
    rw [exceptBind_eq_ok] at h
    obtain ⟨⟨p0, pl⟩, hfl, h⟩ := h
    have hcs := ok_pair_snd h
    subst hcs
    simp only [Node.position_mk] at hp
    obtain ⟨-, -, -, -, -, -, hwithin, hord, hwflist⟩ := WFNode_parts_mk hwf hp
    have hwfk0 : WFNode src k0 = true := WFList_mem hwflist k0 (List.mem_cons_self _ _)
    obtain ⟨qk, hqk, hqa, hqb⟩ := childrenWithin_mem hwithin k0 (List.mem_cons_self _ _)
    intro c hc
    rcases List.mem_append.mp hc with hc12 | hc3
    · rcases List.mem_append.mp hc12 with hc1 | hc2
      · exact within_mono (ih1 first' cs1 hk0p hwfk0 qk hqk c hc1) hqa hqb
      · exact ih2 rest' cs2 t2 hpc (WFList_tail hwflist) p
          (childrenWithin_tail hwithin) c hc2
    · rw [List.mem_singleton] at hc3
      subst hc3
      have hm1 := parseNode_position f k0 false first' cs1 hk0p
      have hm2 := parseChildren_positions f ks rest' cs2 t2 hpc
      have hmap : (first' :: rest').map Node.position =
          (k0 :: ks).map Node.position := by
        simp only [List.map_cons, hm1, hm2]
      obtain ⟨ha, hb, hcx⟩ := contentSpan_within hmap hfl hwithin hwflist hord
      dsimp only
      refine ⟨?_, ?_, ?_⟩ <;> omega
  · -- unmatched node kind
    intro i children root h1 h2 h3 h4 h5 h6 n' cs h hwf p hp c hc
    rw [parseNode_mk] at h
    rw [if_neg h1, if_neg h2, if_neg h3, if_neg h4, if_neg h5, if_neg h6] at h
    have hcs := ok_pair_snd h
    subst hcs
    cases hc
  · -- parseChildren, empty list
    intro l' cs t h hwf p hwithin c hc
    rw [parseChildren] at h
    injection h with h'
    have hcs : ([] : List Change) = cs := congrArg (fun x => x.2.1) h'
    subst hcs
    cases hc
  · -- parseChildren, cons
    intro k0 ks ih1 ih2 l' cs t h hwf p hwithin
    rw [parseChildren] at h
    rw [exceptBind_eq_ok] at h
    obtain ⟨⟨c0', ch1⟩, hk0, h⟩ := h
    try dsimp only at h
    rw [exceptBind_eq_ok] at h
    obtain ⟨⟨cs', ch2, t2⟩, hks, h⟩ := h
    injection h with h'
    have hcs : ch1 ++ ch2 = cs := congrArg (fun x => x.2.1) h'
    subst hcs
    rw [WFList, Bool.and_eq_true] at hwf
    obtain ⟨hwfk0, hwfks⟩ := hwf
    obtain ⟨qk, hqk, hqa, hqb⟩ := childrenWithin_mem hwithin k0 (List.mem_cons_self _ _)
    intro c hc
    rcases List.mem_append.mp hc with hc1 | hc2
    · exact within_mono (ih1 c0' ch1 hk0 hwfk0 qk hqk c hc1) hqa hqb
    · exact ih2 cs' ch2 t2 hks hwfks p (childrenWithin_tail hwithin) c hc2
  · -- parseRootList, empty list
    intro l' cs h hwf p hwithin c hc
    rw [parseRootList] at h
    injection h with h'
    have hcs : ([] : List Change) = cs := congrArg Prod.snd h'
    subst hcs
    cases hc
  · -- parseRootList, cons
    intro k0 ks ih1 ih2 l' cs h hwf p hwithin
    rw [parseRootList] at h
    rw [exceptBind_eq_ok] at h
    obtain ⟨⟨c0', ch1⟩, hk0, h⟩ := h
    try dsimp only at h
    rw [exceptBind_eq_ok] at h
    obtain ⟨⟨cs', ch2⟩, hks, h⟩ := h
    injection h with h'
    have hcs : ch1 ++ ch2 = cs := congrArg Prod.snd h'
    subst hcs
    rw [WFList, Bool.and_eq_true] at hwf
    obtain ⟨hwfk0, hwfks⟩ := hwf
    obtain ⟨qk, hqk, hqa, hqb⟩ := childrenWithin_mem hwithin k0 (List.mem_cons_self _ _)
    intro c hc
    rcases List.mem_append.mp hc with hc1 | hc2
    · exact within_mono (ih1 c0' ch1 hk0 hwfk0 qk hqk c hc1) hqa hqb
    · exact ih2 cs' ch2 hks hwfks p (childrenWithin_tail hwithin) c hc2

/-- A list is its `takeWhile` prefix followed by the rest. -/
theorem takeWhile_append_drop (p : Char → Bool) (l : List Char) :
    l.takeWhile p ++ l.drop (l.takeWhile p).length = l := by
  induction l with
  | nil => rfl
  | cons c cs ih =>
    by_cases hp : p c
    · simp only [List.takeWhile_cons, hp, if_true, List.length_cons, List.drop_succ_cons,
        List.cons_append]
      rw [ih]
    · simp [List.takeWhile_cons, hp]

/-- A successful `(.+)(?:\\n|$)` match is nonempty and decomposes the
remainder. -/
theorem dotPlusSplit_ok {r t rest : List Char} (h : dotPlusSplit r = some (t, rest)) :
    t ≠ [] ∧ t ++ rest = r := by
  rw [dotPlusSplit] at h
  by_cases he : (r.takeWhile fun c => c ≠ '\n') = []
  · rw [if_pos he] at h
    exact absurd h (by simp)
  · rw [if_neg he] at h
    injection h with h'
    have h1 : (r.takeWhile fun c => c ≠ '\n') = t := congrArg Prod.fst h'
    have h2 : r.drop (r.takeWhile fun c => c ≠ '\n').length = rest := congrArg Prod.snd h'
    constructor
    · rw [← h1]
      exact he
    · rw [← h1, ← h2]
      exact takeWhile_append_drop _ r

/-- A successful whitespace-backtracking match decomposes
`wsRev.reverse ++ r` with a nonempty `(.+)` capture. -/
theorem wsBacktrack_ok : ∀ (wsRev r w t : List Char), wsBacktrack wsRev r = some (w, t) →
    t ≠ [] ∧ ∃ rest, w ++ (t ++ rest) = wsRev.reverse ++ r := by
  intro wsRev
  induction wsRev with
  | nil =>
    intro r w t h
    rw [wsBacktrack] at h
    cases hd : dotPlusSplit r with
    | none => rw [hd] at h; exact absurd h (by simp)
    | some pr =>
      obtain ⟨t0, rest0⟩ := pr
      rw [hd] at h
      injection h with h'
      have h1 : ([] : List Char).reverse = w := congrArg Prod.fst h'
      have h2 : t0 = t := congrArg Prod.snd h'
      obtain ⟨hne, hsplit⟩ := dotPlusSplit_ok hd
      subst h2
      refine ⟨hne, rest0, ?_⟩
      rw [← h1]
      simpa using hsplit
  | cons c ws ih =>
    intro r w t h
    rw [wsBacktrack] at h
    cases hd : dotPlusSplit r with
    | none =>
      rw [hd] at h
      obtain ⟨hne, rest, hsplit⟩ := ih (c :: r) w t h
      refine ⟨hne, rest, ?_⟩
      rw [hsplit, List.reverse_cons, List.append_assoc]
      rfl
    | some pr =>
      obtain ⟨t0, rest0⟩ := pr
      rw [hd] at h
      injection h with h'
      have h1 : (c :: ws).reverse = w := congrArg Prod.fst h'
      have h2 : t0 = t := congrArg Prod.snd h'
      obtain ⟨hne, hsplit⟩ := dotPlusSplit_ok hd
      subst h2
      exact ⟨hne, rest0, by rw [← h1, hsplit]⟩

/-- A successful match at a position fits inside the string: the capture is
nonempty, `match[1]` covers at least `title:`, and the whole match stays in
bounds. -/
theorem matchTitleAt_ok {s : List Char} {m1 : Nat} {t : List Char}
    (h : matchTitleAt s = some (m1, t)) :
    t ≠ [] ∧ 6 ≤ m1 ∧ m1 + t.length ≤ s.length := by
  rw [matchTitleAt] at h
  by_cases hp : s.take 6 = "title:".data
  · rw [if_pos hp] at h
    have hlen6 : 6 ≤ s.length := by
      have h6 := congrArg List.length hp
      rw [List.length_take] at h6
      have h6' : ("title:".data).length = 6 := rfl
      rw [h6'] at h6
      omega
    cases hb : wsBacktrack ((s.drop 6).takeWhile jsIsSpace).reverse
        ((s.drop 6).drop ((s.drop 6).takeWhile jsIsSpace).length) with
    | none => rw [hb] at h; exact absurd h (by simp)
    | some pr =>
      obtain ⟨w, t0⟩ := pr
      rw [hb] at h
      injection h with h'
      have h1 : 6 + w.length = m1 := congrArg Prod.fst h'
      have h2 : t0 = t := congrArg Prod.snd h'
      subst h2
      obtain ⟨hne, rest, hsplit⟩ := wsBacktrack_ok _ _ _ _ hb
      rw [List.reverse_reverse] at hsplit
      have hws : ((s.drop 6).takeWhile jsIsSpace) ++
          (s.drop 6).drop ((s.drop 6).takeWhile jsIsSpace).length = s.drop 6 :=
        takeWhile_append_drop jsIsSpace (s.drop 6)
      rw [hws] at hsplit
      have hlensplit := congrArg List.length hsplit
      simp only [List.length_append, List.length_drop] at hlensplit
      refine ⟨hne, by omega, by omega⟩
  · rw [if_neg hp] at h
    exact absurd h (by simp)

/-- `exec` bound: a successful leftmost match fits inside the string. -/
theorem execTitle_ok : ∀ (s : List Char) (i j m1 : Nat) (t : List Char),
    execTitle s i = some (j, m1, t) →
    i ≤ j ∧ t ≠ [] ∧ 6 ≤ m1 ∧ (j - i) + m1 + t.length ≤ s.length := by
  intro s
  induction s with
  | nil => intro i j m1 t h; exact absurd h (by simp [execTitle])
  | cons c rest ih =>
    intro i j m1 t h
    rw [execTitle] at h
    cases hm : matchTitleAt (c :: rest) with
    | some pr =>
      obtain ⟨m1', t'⟩ := pr
      rw [hm] at h
      injection h with h'
      have h1 : i = j := congrArg (fun x => x.1) h'
      have h2 : m1' = m1 := congrArg (fun x => x.2.1) h'
      have h3 : t' = t := congrArg (fun x => x.2.2) h'
      subst h1
      subst h2
      subst h3
      obtain ⟨hne, hm1, hfit⟩ := matchTitleAt_ok hm
      exact ⟨le_refl _, hne, hm1, by simpa using hfit⟩
    | none =>
      rw [hm] at h
      obtain ⟨hij, hne, hm1, hfit⟩ := ih (i + 1) j m1 t h
      refine ⟨by omega, hne, hm1, ?_⟩
      simp only [List.length_cons]
      omega

theorem exceptMap_eq_ok {ε α β : Type _} {x : Except ε α} {g : α → β} {b : β} :
    x.map g = .ok b ↔ ∃ a, x = .ok a ∧ g a = b := by
  cases x <;> simp [Except.map]

/-- Every frontmatter change lies inside the found metadata child's span
(with a proper span of its own). -/
theorem parseFrontmatter_within {src : List Char} {ast : Node} {cs : List Change}
    (hwf : WFRoot src ast = true) (h : parseFrontmatter ast = .ok cs) :
    ∀ c ∈ cs, ∃ y ∈ ast.children, ∃ py : Pos, y.position = some py ∧
      (py.startOffset : Int) ≤ c.start ∧ c.start < c.«end» ∧
      c.«end» ≤ (py.endOffset : Int) := by
  rw [parseFrontmatter] at h
  cases hf : ast.children.find? (fun n => n.type = "yaml") with
  | none =>
    rw [hf] at h
    injection h with h'
    subst h'
    intro c hc
    cases hc
  | some fm =>
    rw [hf] at h
    try dsimp only at h
    cases he : execTitle fm.value 0 with
    | none =>
      rw [he] at h
      injection h with h'
      subst h'
      intro c hc
      cases hc
    | some tr =>
      obtain ⟨idx, m1len, title⟩ := tr
      rw [he] at h
      try dsimp only at h
      cases hp : fm.position with
      | none =>
        rw [hp] at h
        exact absurd h (by simp)
      | some py =>
        rw [hp] at h
        injection h with h'
        subst h'
        intro c hc
        rw [List.mem_singleton] at hc
        subst hc
        have hfm_mem : fm ∈ ast.children := List.mem_of_find?_eq_some hf
        have hfm_type : fm.type = "yaml" := by simpa using List.find?_some hf
        have hwfroot := WFNode_parts hwf
        obtain ⟨pr, hpr, -, -, -, -, -, -, -, -, hwfl⟩ := hwfroot
        have hwff : WFNode src fm = true := WFList_mem hwfl fm hfm_mem
        obtain ⟨py', hpy', -, -, -, hyaml, -, -, -, -⟩ := WFNode_parts hwff
        rw [hp] at hpy'
        injection hpy' with hpye
        subst hpye
        have hylen : py.endOffset = py.startOffset + 8 + fm.info.value.length :=
          hyaml hfm_type
        have hexec := execTitle_ok fm.value 0 idx m1len title he
        obtain ⟨-, htne, hm1, hfit⟩ := hexec
        have htlen : 0 < title.length := List.length_pos.mpr htne
        have hv : fm.value = fm.info.value := rfl
        rw [hv] at hfit
        simp only [Nat.sub_zero] at hfit
        refine ⟨fm, hfm_mem, py, hp, ?_, ?_, ?_⟩
        · dsimp only
          omega
        · dsimp only
          omega
        · dsimp only
          omega

/-- Every import change lies inside its `mdxjsEsm` child's span (with a
proper span of its own). -/
theorem parseImports_within {src : List Char} {ast : Node}
    (hwf : WFRoot src ast = true) :
    ∀ c ∈ parseImports ast, ∃ y ∈ ast.children, ∃ py : Pos, y.position = some py ∧
      (py.startOffset : Int) ≤ c.start ∧ c.start < c.«end» ∧
      c.«end» ≤ (py.endOffset : Int) := by
  intro c hc
  rw [parseImports] at hc
  rw [List.reduceOption_mem_iff, List.mem_flatMap] at hc
  obtain ⟨n, hn, hcn⟩ := hc
  rw [List.mem_filter] at hn
  obtain ⟨hn_mem, hn_type⟩ := hn
  rw [List.mem_map] at hcn
  obtain ⟨e, he_mem, he_eq⟩ := hcn
  by_cases het : e.type = "ImportDeclaration"
  · rw [if_pos het] at he_eq
    by_cases her : e.raw = localizeUrl e.raw
    · rw [if_pos her] at he_eq
      exact absurd he_eq (by simp)
    · rw [if_neg her] at he_eq
      injection he_eq with he'
      subst he'
      have hwfroot := WFNode_parts hwf
      obtain ⟨pr, hpr, -, -, -, -, -, -, -, -, hwfl⟩ := hwfroot
      have hwfn : WFNode src n = true := WFList_mem hwfl n hn_mem
      obtain ⟨py, hpy, -, -, -, -, -, hes, -, -⟩ := WFNode_parts hwfn
      have hesn := hes e he_mem
      unfold esWF at hesn
      simp only [Bool.and_eq_true, decide_eq_true_eq] at hesn
      obtain ⟨⟨he1, he2⟩, he3⟩ := hesn
      refine ⟨n, hn_mem, py, hpy, ?_, ?_, ?_⟩ <;> (dsimp only; omega)
  · rw [if_neg het] at he_eq
    exact absurd he_eq (by simp)

/-- Every content change of the top-level loop lies inside the enclosing
span of the root's children (with a proper span of its own). -/
theorem parseTopList_within {src : List Char} (f : Node → List Char) :
    ∀ (l : List Node), WFList src l = true → ∀ p : Pos,
      childrenWithin p l = true → ∀ cs : List Change, parseTopList f l = .ok cs →
      ∀ c ∈ cs, (p.startOffset : Int) ≤ c.start ∧ c.start < c.«end» ∧
        c.«end» ≤ (p.endOffset : Int) := by
  intro l
  induction l with
  | nil =>
    intro hwf p hwithin cs h c hc
    rw [parseTopList] at h
    injection h with h'
    subst h'
    cases hc
  | cons k0 ks ih =>
    intro hwf p hwithin cs h c hc
    rw [parseTopList] at h
    rw [WFList, Bool.and_eq_true] at hwf
    obtain ⟨hwfk0, hwfks⟩ := hwf
    by_cases hct : TOP_LEVEL_NODE_TYPES.contains k0.type = true
    · rw [if_pos hct] at h
      rw [exceptBind_eq_ok] at h
      obtain ⟨ch1, hch1, h⟩ := h
      try dsimp only at h
      rw [exceptBind_eq_ok] at h
      obtain ⟨rest, hrest, h⟩ := h
      injection h with h'
      subst h'
      rw [exceptMap_eq_ok] at hch1
      obtain ⟨⟨n', cs'⟩, hparse, hcs'⟩ := hch1
      subst hcs'
      rcases List.mem_append.mp hc with hc1 | hc2
      · obtain ⟨qk, hqk, hqa, hqb⟩ := childrenWithin_mem hwithin k0
          (List.mem_cons_self _ _)
        exact within_mono
          ((parse_within src f).1 k0 true n' cs' hparse hwfk0 qk hqk c hc1) hqa hqb
      · exact ih hwfks p (childrenWithin_tail hwithin) rest hrest c hc2
    · rw [if_neg hct] at h
      rw [exceptBind_eq_ok] at h
      obtain ⟨ch1, hch1, h⟩ := h
      try dsimp only at h
      rw [exceptBind_eq_ok] at h
      obtain ⟨rest, hrest, h⟩ := h
      injection h with h'
      subst h'
      have hch1' : ([] : List Change) = ch1 := by
        injection hch1
      subst hch1'
      rw [List.nil_append] at hc
      exact ih hwfks p (childrenWithin_tail hwithin) rest hrest c hc

/-- C7 counterexample: the change-list span invariant fails as stated.  On
the well-formed tree for `:::tip\ntext\n\n- item\n:::\n` the full emitted
list contains the list item's ContentBlock span `[15, 19)` and the
directive's ContentBlock span `[7, 19)`, which overlap. -/
theorem spec_C7_counterexample :
    WFRoot cexSource cexTree = true ∧
    parseAll (fun n => n.value) cexTree =
      .ok [{ text := "item".data, start := 15, «end» := 19, notes := some "" },
           { text := [], start := 7, «end» := 19,
             notes := some "content for the \"tip\" callout" }] ∧
    ¬ NonOverlapping
        [{ text := "item".data, start := 15, «end» := 19, notes := some "" },
         { text := [], start := 7, «end» := 19,
           notes := some "content for the \"tip\" callout" }] :=
  ⟨rfl, rfl, by unfold NonOverlapping; decide⟩

/-- C7 amended: on every well-formed positioned tree every emitted span is
proper and in bounds (`0 ≤ start < end ≤ len(source)`); every change
emitted by the walker for a node stays inside that node's span; hence
changes emitted from nodes with disjoint spans (in particular distinct
top-level children) never overlap.  The full-list pairwise non-overlap of
the original claim is false: a change-emitting node nested inside a
directive container produces a ContentBlock span containing the nested
changes' spans (see the counterexample). -/
theorem spec_C7_span_invariants :
    (∀ (src : List Char) (f : Node → List Char) (ast : Node) (cs : List Change),
      WFRoot src ast = true → parseAll f ast = .ok cs →
      ∀ c ∈ cs, 0 ≤ c.start ∧ c.start < c.«end» ∧ c.«end» ≤ (src.length : Int)) ∧
    (∀ (src : List Char) (f : Node → List Char) (n : Node) (root : Bool)
        (p : Pos) (n' : Node) (cs : List Change),
      WFNode src n = true → n.position = some p →
      parseNode f n root = .ok (n', cs) →
      ∀ c ∈ cs, (p.startOffset : Int) ≤ c.start ∧ c.start < c.«end» ∧
        c.«end» ≤ (p.endOffset : Int)) ∧
    (∀ (src : List Char) (f : Node → List Char) (n1 n2 : Node) (r1 r2 : Bool)
        (p1 p2 : Pos) (m1 m2 : Node) (cs1 cs2 : List Change),
      WFNode src n1 = true → WFNode src n2 = true →
      n1.position = some p1 → n2.position = some p2 →
      p1.endOffset ≤ p2.startOffset →
      parseNode f n1 r1 = .ok (m1, cs1) → parseNode f n2 r2 = .ok (m2, cs2) →
      ∀ c1 ∈ cs1, ∀ c2 ∈ cs2, c1.«end» ≤ c2.start) := by
  refine ⟨?_, ?_, ?_⟩
  · intro src f ast cs hwf h c hc
    rw [parseAll] at h
    rw [exceptBind_eq_ok] at h
    obtain ⟨fm, hfm, h⟩ := h
    try dsimp only at h
    rw [exceptBind_eq_ok] at h
    obtain ⟨ct, hct, h⟩ := h
    injection h with h'
    subst h'
    obtain ⟨pr, hpr, hlt, hle, -, -, -, -, hwithin, -, hwfl⟩ := WFNode_parts hwf
    rcases List.mem_append.mp hc with hcfi | hc3
    · rcases List.mem_append.mp hcfi with hc1 | hc2
      · obtain ⟨y, hy, py, hpy, ha, hb, hcend⟩ := parseFrontmatter_within hwf hfm c hc1
        obtain ⟨qy, hqy, hq1, hq2⟩ := childrenWithin_mem hwithin y hy
        rw [hpy] at hqy
        injection hqy with he
        subst he
        refine ⟨?_, hb, ?_⟩ <;> omega
      · obtain ⟨y, hy, py, hpy, ha, hb, hcend⟩ := parseImports_within hwf c hc2
        obtain ⟨qy, hqy, hq1, hq2⟩ := childrenWithin_mem hwithin y hy
        rw [hpy] at hqy
        injection hqy with he
        subst he
        refine ⟨?_, hb, ?_⟩ <;> omega
    · rw [parseContent] at hct
      obtain ⟨ha, hb, hcend⟩ :=
        parseTopList_within f ast.children hwfl pr hwithin ct hct c hc3
      refine ⟨?_, hb, ?_⟩ <;> omega
  · intro src f n root p n' cs hwf hp h
    exact (parse_within src f).1 n root n' cs h hwf p hp
  · intro src f n1 n2 r1 r2 p1 p2 m1 m2 cs1 cs2 hwf1 hwf2 hp1 hp2 hsep h1 h2 c1 hc1 c2 hc2
    have b1 := (parse_within src f).1 n1 r1 m1 cs1 h1 hwf1 p1 hp1 c1 hc1
    have b2 := (parse_within src f).1 n2 r2 m2 cs2 h2 hwf2 p2 hp2 c2 hc2
    obtain ⟨-, -, hb1⟩ := b1
    obtain ⟨hb2, -, -⟩ := b2
    omega

/-- C7 witness: the amended invariants evaluated on the frontmatter
example tree: both emitted changes (title `[11, 16)` and body paragraph
`[22, 26)`) are proper spans in bounds of the 26-character source. -/
theorem spec_C7_span_invariants_witness :
    ((0 : Int) ≤ 11 ∧ (11 : Int) < 16 ∧ (16 : Int) ≤ (fmSource.length : Int)) ∧
    ((0 : Int) ≤ 22 ∧ (22 : Int) < 26 ∧ (26 : Int) ≤ (fmSource.length : Int)) := by
  have h := spec_C7_span_invariants.1 fmSource (fun n => n.value) fmTree
    [{ type := some "title", text := "Guide".data, start := 11, «end» := 16,
       notes := some "title for document" },
     { text := "Body".data, start := 22, «end» := 26, notes := some "" }]
    (by rfl) (by rfl)
  exact ⟨h { type := some "title", text := "Guide".data, start := 11, «end» := 16,
             notes := some "title for document" } (by simp),
         h { text := "Body".data, start := 22, «end» := 26, notes := some "" } (by simp)⟩

/-! ## Claims about the Frontmatter and Reference Extractors -/
/-- C5: the Frontmatter Extractor returns an empty result (not an error)
when the root has no metadata (`yaml`) child, or when the metadata block's
raw value has no `title` match; and on the tree for
`"---\ntitle: Guide\n---\n\nBody"` it emits exactly one Title change with
`text = "Guide"` whose span `[11, 16)`, sliced out of the source, is also
`"Guide"` (the metadata block's start offset plus the leading `---\n`
divider plus the in-block offset of the value). -/
theorem spec_C5_frontmatter :
    (∀ ast : Node, ast.children.find? (fun n => n.type = "yaml") = none →
      parseFrontmatter ast = .ok []) ∧
    (∀ (ast fm : Node), ast.children.find? (fun n => n.type = "yaml") = some fm →
      execTitle fm.value 0 = none → parseFrontmatter ast = .ok []) ∧
    parseFrontmatter fmTree =
      .ok [{ type := some "title", text := "Guide".data, start := 11, «end» := 16,
             notes := some "title for document" }] ∧
    sliceN fmSource 11 16 = "Guide".data := by
  refine ⟨fun ast h => ?_, fun ast fm h ht => ?_, rfl, rfl⟩
  · rw [parseFrontmatter, h]
  · rw [parseFrontmatter, h]
    simp [ht]

/-- C5 witness: a root with no metadata child, and one whose metadata
block raw text (`"layout: page"`) has no title field, both yield an empty
result. -/
theorem spec_C5_frontmatter_witness :
    parseFrontmatter (.mk { type := "root" }
      [.mk { type := "paragraph", position := some ⟨0, 4⟩ } []]) = .ok [] ∧
    parseFrontmatter (.mk { type := "root" }
      [.mk { type := "yaml", value := "layout: page".data,
             position := some ⟨0, 20⟩ } []]) = .ok [] :=
  ⟨spec_C5_frontmatter.1 _ (by rfl),
   spec_C5_frontmatter.2.1 _
     (.mk { type := "yaml", value := "layout: page".data, position := some ⟨0, 20⟩ } [])
     (by rfl) (by rfl)⟩

/-- C6: the Reference Extractor rewrites each top-level import's source
literal by substituting the first occurrence of the default-locale segment
`/en` with `/%%locale%%`; an import whose rewritten target equals the
original is skipped, and every other import yields exactly one Reference
(`Import`) change whose span is the source literal's span and whose text
is the rewritten literal. -/
theorem spec_C6_imports :
    (∀ ast : Node,
      parseImports ast =
        (ast.children.filter fun n => n.type = "mdxjsEsm").flatMap fun n =>
          (n.info.esBody.filter fun e => e.type = "ImportDeclaration").filterMap fun e =>
            if e.raw = localizeUrl e.raw then none
            else
              some { type := some "Import", text := localizeUrl e.raw,
                     start := (e.sourceStart : Int), «end» := (e.sourceEnd : Int) }) ∧
    (∀ url : List Char, localizeUrl url = replaceFirst url "/en".data "/%%locale%%".data) ∧
    localizeUrl "\"/en/docs/guide\"".data = "\"/%%locale%%/docs/guide\"".data ∧
    localizeUrl "\"react\"".data = "\"react\"".data := by
  refine ⟨fun ast => ?_, fun url => rfl, rfl, rfl⟩
  rw [parseImports]
  show List.filterMap id _ = _
  rw [List.filterMap_flatMap]
  refine congrArg _ (funext fun n => ?_)
  rw [List.filterMap_map]
  simp only [Function.comp_def, id_eq]
  generalize n.info.esBody = es
  induction es with
  | nil => rfl
  | cons e es ihe =>
    simp only [List.filterMap_cons, List.filter_cons, Function.comp_apply, id_eq]
    by_cases he : e.type = "ImportDeclaration"
    · rw [if_pos he, decide_eq_true he]
      cases hif : (if e.raw = localizeUrl e.raw then none else
          some { type := some "Import", text := localizeUrl e.raw,
                 start := (e.sourceStart : Int), «end» := (e.sourceEnd : Int) } :
          Option Change) <;> simp [hif, ihe, List.filterMap_cons]
    · rw [if_neg he, decide_eq_false he]
      simp [ihe]

end TestDocs


